import Mathlib

/-!
Verification of the Minesweeper board engine (`src/minesweeper.rs`).

The Rust code is shallowly embedded: the two `Vec<Vec<_>>` grids (indexed
`[x][y]`) become total functions `Nat → Nat → _` together with the `width`
and `height` fields; a `Vec` index whose boundedness is not implied by the
surrounding guards is modelled by a checked read that panics out of bounds,
matching Rust's indexing semantics.  Fallible Rust code returns `RRes`:
`ok`/`err` mirror `Result`, `panicked` models a Rust panic (failed `assert!`,
out-of-bounds index, `unwrap` on `Err`, or `gen_range` on an empty range),
and `noFuel` is the fuel-exhaustion marker used to embed the unbounded
recursion/loops.  `rand::thread_rng` is modelled by an ambient stream
`g : Nat → Nat` plus a cursor threaded through the state.
-/

namespace Minesweeper

inductive Digit where
  | Zero | One | Two | Three | Four | Five | Six | Seven | Eight | Nine
deriving DecidableEq, Repr

/-- `Digit::to_int`. -/
def Digit.toInt : Digit → Nat
  | .Zero => 0
  | .One => 1
  | .Two => 2
  | .Three => 3
  | .Four => 4
  | .Five => 5
  | .Six => 6
  | .Seven => 7
  | .Eight => 8
  | .Nine => 9

/-- `Digit::from_int`; `none` models the panic on arguments above nine. -/
def Digit.fromInt? : Nat → Option Digit
  | 0 => some .Zero
  | 1 => some .One
  | 2 => some .Two
  | 3 => some .Three
  | 4 => some .Four
  | 5 => some .Five
  | 6 => some .Six
  | 7 => some .Seven
  | 8 => some .Eight
  | 9 => some .Nine
  | _ => none

inductive Tile where
  | Safe (d : Digit)
  | Mine
deriving DecidableEq, Repr

inductive TileDisplay where
  | Hidden | Revealed | Flag | Question
deriving DecidableEq, Repr

/-- Result of a fallible embedded operation (see the module comment). -/
inductive RRes (α : Type) where
  | ok (a : α)
  | err (msg : String)
  | panicked
  | noFuel

/-- Point update of a function grid (one `grid[x][y] = v` assignment). -/
def upd {α : Type} (f : Nat → Nat → α) (x y : Nat) (v : α) : Nat → Nat → α :=
  fun u w => if u = x ∧ w = y then v else f u w

/-- The `Board` struct; the two grids are total functions, meaningful on
`[0, width) × [0, height)`. -/
structure Board where
  tiles : Nat → Nat → Tile
  display : Nat → Nat → TileDisplay
  width : Nat
  height : Nat
  mines : Nat
  any_revealed : Bool

instance : Inhabited Board :=
  ⟨{ tiles := fun _ _ => Tile.Safe .Zero, display := fun _ _ => TileDisplay.Hidden,
     width := 0, height := 0, mines := 0, any_revealed := false }⟩

/-- The first pass of `Board::update_digits`: the adjacent-mine count
accumulated for cell `(x, y)` by the eight guarded checks, in source order
(up, down, down-right, right, up-right, down-left, left, up-left). -/
def countsAt (tiles : Nat → Nat → Tile) (width height x y : Nat) : Nat :=
  (if 0 < y then (if tiles x (y - 1) = Tile.Mine then 1 else 0) else 0) +
  (if y < height - 1 then (if tiles x (y + 1) = Tile.Mine then 1 else 0) else 0) +
  (if x < width - 1 ∧ y < height - 1 then (if tiles (x + 1) (y + 1) = Tile.Mine then 1 else 0) else 0) +
  (if x < width - 1 then (if tiles (x + 1) y = Tile.Mine then 1 else 0) else 0) +
  (if x < width - 1 ∧ 0 < y then (if tiles (x + 1) (y - 1) = Tile.Mine then 1 else 0) else 0) +
  (if 0 < x ∧ y < height - 1 then (if tiles (x - 1) (y + 1) = Tile.Mine then 1 else 0) else 0) +
  (if 0 < x then (if tiles (x - 1) y = Tile.Mine then 1 else 0) else 0) +
  (if 0 < x ∧ 0 < y then (if tiles (x - 1) (y - 1) = Tile.Mine then 1 else 0) else 0)

/-- `Board::update_digits` (parameters in source order: tiles, height, width).
The first pass only reads the unmodified grid, so the two passes fuse into a
pointwise map.  `Digit::from_int`'s panic is unreachable here because the
count is at most eight (`countsAt_le_eight` below), so the `getD` default is
never used. -/
def updateDigits (tiles : Nat → Nat → Tile) (height width : Nat) : Nat → Nat → Tile :=
  fun x y =>
    if x < width ∧ y < height ∧ tiles x y ≠ Tile.Mine then
      Tile.Safe ((Digit.fromInt? (countsAt tiles width height x y)).getD .Zero)
    else tiles x y

/-- `Board::reveal_all`. -/
def revealAll (b : Board) : Board :=
  { b with display := fun _ _ => TileDisplay.Revealed }

/-- The display-state cycle of `Board::toggle_display_at`'s `match`. -/
def nextDisplay : TileDisplay → TileDisplay
  | TileDisplay.Hidden => TileDisplay.Flag
  | TileDisplay.Flag => TileDisplay.Question
  | TileDisplay.Question => TileDisplay.Hidden
  | TileDisplay.Revealed => TileDisplay.Revealed

/-- `Board::toggle_display_at`. -/
def toggleDisplayAt (b : Board) (x y : Nat) : RRes (TileDisplay × Board) :=
  if x ≥ b.width ∨ y ≥ b.height then
    .err "Index out of bounds"
  else
    let next := nextDisplay (b.display x y)
    .ok (next, { b with display := upd b.display x y next })

/-- `Board::get_display_at`. -/
def getDisplayAt (b : Board) (x y : Nat) : RRes TileDisplay :=
  if x ≥ b.width then .err "x must be less than width"
  else if y ≥ b.height then .err "y must be less than height"
  else .ok (b.display x y)

/-- `Board::get_tile_at`. -/
def getTileAt (b : Board) (x y : Nat) : RRes Tile :=
  if x ≥ b.width then .err "x must be less than width"
  else if y ≥ b.height then .err "y must be less than height"
  else .ok (b.tiles x y)

/-- `Board::check_victory`: the nested `for` loops with early `return false`
are a conjunction over every in-bounds cell. -/
def checkVictory (b : Board) : Bool :=
  (List.range b.width).all fun x => (List.range b.height).all fun y =>
    match b.tiles x y with
    | Tile.Safe _ => b.display x y == TileDisplay.Revealed
    | Tile.Mine => true

/-- `rng.gen_range(lo, hi)`: draws the next stream value; panics when the
range is empty, as `rand` does. -/
def genRange (g : Nat → Nat) (rpos lo hi : Nat) : RRes (Nat × Nat) :=
  if lo < hi then .ok (lo + g rpos % (hi - lo), rpos + 1) else .panicked

/-- `rng.gen_bool(0.5)`: draws the next stream value. -/
def genBool (g : Nat → Nat) (rpos : Nat) : Bool × Nat :=
  (g rpos % 2 == 0, rpos + 1)

/-- The rejection-sampling loop of `Board::new`, with fuel. -/
def placeMines (g : Nat → Nat) :
    Nat → (Nat → Nat → Tile) → Nat → Nat → Nat → Nat → Nat →
    RRes ((Nat → Nat → Tile) × Nat)
  | 0, _, _, _, _, _, _ => .noFuel
  | fuel + 1, t, w, h, mines, num, rpos =>
    if num < mines then
      match genRange g rpos 0 w with
      | .ok (x, r1) =>
        match genRange g r1 0 h with
        | .ok (y, r2) =>
          if t x y = Tile.Mine then placeMines g fuel t w h mines num r2
          else placeMines g fuel (upd t x y Tile.Mine) w h mines (num + 1) r2
        | .err e => .err e
        | .panicked => .panicked
        | .noFuel => .noFuel
      | .err e => .err e
      | .panicked => .panicked
      | .noFuel => .noFuel
    else .ok (t, rpos)

/-- `Board::new`. -/
def Board.new (g : Nat → Nat) (fuel w h mines rpos : Nat) : RRes (Board × Nat) :=
  match placeMines g fuel (fun _ _ => Tile.Safe .Zero) w h mines 0 rpos with
  | .ok (t, r) =>
      .ok ({ tiles := updateDigits t h w,
             display := fun _ _ => TileDisplay.Hidden,
             width := w, height := h, mines := mines, any_revealed := false }, r)
  | .err e => .err e
  | .panicked => .panicked
  | .noFuel => .noFuel

/-- One conditional mine removal in `Board::guarantee_zero`. -/
def remStep (t : Nat → Nat → Tile) (u v removed : Nat) : (Nat → Nat → Tile) × Nat :=
  if t u v = Tile.Mine then (upd t u v (Tile.Safe .Zero), removed + 1) else (t, removed)

/-- The cells checked by the removal phase of `Board::guarantee_zero`, with
the source's guards, in source order (the cell itself; left, up-left,
down-left; right, up-right, down-right; up; down). -/
def removeOrder (w h x y : Nat) : List (Nat × Nat) :=
  [(x, y)] ++
  (if 0 < x then
    [(x - 1, y)] ++ (if 0 < y then [(x - 1, y - 1)] else []) ++
      (if y < h - 1 then [(x - 1, y + 1)] else [])
   else []) ++
  (if x < w - 1 then
    [(x + 1, y)] ++ (if 0 < y then [(x + 1, y - 1)] else []) ++
      (if y < h - 1 then [(x + 1, y + 1)] else [])
   else []) ++
  (if 0 < y then [(x, y - 1)] else []) ++
  (if y < h - 1 then [(x, y + 1)] else [])

/-- The removal phase of `Board::guarantee_zero`: clears the clicked cell and
its in-bounds neighbors in source order, tallying `removed_mines`. -/
def removeNear (t : Nat → Nat → Tile) (w h x y : Nat) : (Nat → Nat → Tile) × Nat :=
  (removeOrder w h x y).foldl (fun s p => remStep s.1 p.1 p.2 s.2) (t, 0)

/-- `x_range` / `y_range` of `Board::guarantee_zero`: the before/after
sub-ranges (each a half-open pair) along one axis. -/
def axisRange (c n : Nat) : Nat × Nat × Nat × Nat :=
  if 0 < c then (0, c - 1, c + 2, n) else (0, 1, c + 2, n)

/-- One axis of the re-insertion draw in `Board::guarantee_zero`:
`some` a coordinate, or `none` for the `break` when no sub-range is usable. -/
def pickCoord (g : Nat → Nat) (c bound lo1 hi1 lo2 hi2 rpos : Nat) :
    RRes (Option (Nat × Nat)) :=
  if 0 < c ∧ c + 2 < bound then
    match genBool g rpos with
    | (side, r1) =>
      if side then
        match genRange g r1 lo1 hi1 with
        | .ok (m, r2) => .ok (some (m, r2))
        | .err e => .err e
        | .panicked => .panicked
        | .noFuel => .noFuel
      else
        match genRange g r1 lo2 hi2 with
        | .ok (m, r2) => .ok (some (m, r2))
        | .err e => .err e
        | .panicked => .panicked
        | .noFuel => .noFuel
  else if 0 < c then
    match genRange g rpos lo1 hi1 with
    | .ok (m, r2) => .ok (some (m, r2))
    | .err e => .err e
    | .panicked => .panicked
    | .noFuel => .noFuel
  else if c + 2 < bound then
    match genRange g rpos lo2 hi2 with
    | .ok (m, r2) => .ok (some (m, r2))
    | .err e => .err e
    | .panicked => .panicked
    | .noFuel => .noFuel
  else .ok none

/-- The `while removed_mines > 0` re-insertion loop of
`Board::guarantee_zero`, with fuel. -/
def reinsert (g : Nat → Nat) :
    Nat → (Nat → Nat → Tile) → Nat → Nat → Nat → Nat → Nat → Nat →
    RRes ((Nat → Nat → Tile) × Nat)
  | 0, _, _, _, _, _, _, _ => .noFuel
  | fuel + 1, t, w, h, x, y, removed, rpos =>
    if 0 < removed then
      match axisRange x w with
      | (xlo1, xhi1, xlo2, xhi2) =>
        match pickCoord g x w xlo1 xhi1 xlo2 xhi2 rpos with
        | .ok none => .ok (t, rpos)
        | .ok (some (mx, r1)) =>
          match axisRange y h with
          | (ylo1, yhi1, ylo2, yhi2) =>
            match pickCoord g y h ylo1 yhi1 ylo2 yhi2 r1 with
            | .ok none => .ok (t, r1)
            | .ok (some (my, r2)) =>
              if t mx my ≠ Tile.Mine then
                reinsert g fuel (upd t mx my Tile.Mine) w h x y (removed - 1) r2
              else reinsert g fuel t w h x y removed r2
            | .err e => .err e
            | .panicked => .panicked
            | .noFuel => .noFuel
        | .err e => .err e
        | .panicked => .panicked
        | .noFuel => .noFuel
    else .ok (t, rpos)

/-- `Board::guarantee_zero`; the two `assert!`s become panic checks. -/
def guaranteeZero (g : Nat → Nat) (fuel : Nat) (b : Board) (rpos x y : Nat) :
    RRes (Board × Nat) :=
  if x < b.width ∧ y < b.height then
    match removeNear b.tiles b.width b.height x y with
    | (t1, removed) =>
      if removed ≤ b.mines then
        match reinsert g fuel t1 b.width b.height x y removed rpos with
        | .ok (t2, r) => .ok ({ b with tiles := updateDigits t2 b.height b.width }, r)
        | .err e => .err e
        | .panicked => .panicked
        | .noFuel => .noFuel
      else .panicked
  else .panicked

/-- Checked read of `self.display[x][y]` (panics out of bounds, like a `Vec`
index); used where the source indexes without a preceding bounds guard. -/
def readDisplay (b : Board) (x y : Nat) : RRes TileDisplay :=
  if x < b.width then
    (if y < b.height then .ok (b.display x y) else .panicked)
  else .panicked

/-- The neighbor visit order of `Board::reveal_adjacent` (source order:
left, down-left, up-left, right, down-right, up-right, then the two
vertical neighbors), with the source's bounds guards. -/
def adjOrder (w h x y : Nat) : List (Nat × Nat) :=
  (if 0 < x then
    [(x - 1, y)] ++ (if y < h - 1 then [(x - 1, y + 1)] else []) ++
      (if 0 < y then [(x - 1, y - 1)] else [])
   else []) ++
  (if x < w - 1 then
    [(x + 1, y)] ++ (if y < h - 1 then [(x + 1, y + 1)] else []) ++
      (if 0 < y then [(x + 1, y - 1)] else [])
   else []) ++
  (if y < h - 1 then [(x, y + 1)] else []) ++
  (if 0 < y then [(x, y - 1)] else [])

mutual

/-- `Board::reveal_at`, with fuel.  The `reveal_adjacent(x, y).unwrap()`
turns an `Err` of the recursive call into a panic. -/
def revealAt (g : Nat → Nat) : Nat → Board → Nat → Nat → Nat →
    RRes (Tile × Board × Nat)
  | 0, _, _, _, _ => .noFuel
  | fuel + 1, b, rpos, x, y =>
    if x ≥ b.width ∨ y ≥ b.height then
      .err "x and y must be less than width and height"
    else
      match (if !b.any_revealed then guaranteeZero g (fuel + 1) b rpos x y
             else .ok (b, rpos)) with
      | .ok (b1, r1) =>
        let b2 : Board :=
          { b1 with any_revealed := true,
                    display := upd b1.display x y TileDisplay.Revealed }
        if b2.tiles x y = Tile.Safe .Zero then
          match revealAdjacent g fuel b2 r1 x y with
          | .ok (_, b3, r3) => .ok (b3.tiles x y, b3, r3)
          | .err _ => .panicked
          | .panicked => .panicked
          | .noFuel => .noFuel
        else .ok (b2.tiles x y, b2, r1)
      | .err e => .err e
      | .panicked => .panicked
      | .noFuel => .noFuel
termination_by structural fuel _ _ _ _ => fuel

/-- `Board::reveal_adjacent`, with fuel.  The first `display[x][y]` access is
unguarded in the source, hence the checked read. -/
def revealAdjacent (g : Nat → Nat) : Nat → Board → Nat → Nat → Nat →
    RRes (Bool × Board × Nat)
  | 0, _, _, _, _ => .noFuel
  | fuel + 1, b, rpos, x, y =>
    match readDisplay b x y with
    | .ok d =>
      if d ≠ TileDisplay.Revealed then
        .err "Shouldn't try to reveal adjacent to unrevealed tile"
      else chordFold g fuel (adjOrder b.width b.height x y) b rpos
    | .err e => .err e
    | .panicked => .panicked
    | .noFuel => .noFuel
termination_by structural fuel _ _ _ _ => fuel

/-- The neighbor loop body of `Board::reveal_adjacent`: visit each listed
neighbor in order; a currently-`Hidden` one is revealed (an `Err` of the
inner `reveal_at` is discarded by the `if let`), and revealing a `Mine`
returns `Ok(true)` immediately. -/
def chordFold (g : Nat → Nat) : Nat → List (Nat × Nat) → Board → Nat →
    RRes (Bool × Board × Nat)
  | 0, _, _, _ => .noFuel
  | _ + 1, [], b, rpos => .ok (false, b, rpos)
  | fuel + 1, p :: rest, b, rpos =>
    if b.display p.1 p.2 = TileDisplay.Hidden then
      match revealAt g fuel b rpos p.1 p.2 with
      | .ok (tile, b', r') =>
        if tile = Tile.Mine then .ok (true, b', r')
        else chordFold g fuel rest b' r'
      | .err _ => chordFold g fuel rest b rpos
      | .panicked => .panicked
      | .noFuel => .noFuel
    else chordFold g fuel rest b rpos
termination_by structural fuel _ _ _ => fuel

end

/-! ### Specification-side definitions (from the claims' words) -/

/-- `(u, v)` is one of the up-to-8 grid neighbors of `(x, y)`
(8-connectivity: Chebyshev distance one, not the cell itself). -/
def adjacentCells (x y u v : Nat) : Prop :=
  u ≤ x + 1 ∧ x ≤ u + 1 ∧ v ≤ y + 1 ∧ y ≤ v + 1 ∧ ¬(u = x ∧ v = y)

instance (x y u v : Nat) : Decidable (adjacentCells x y u v) :=
  inferInstanceAs (Decidable (_ ∧ _ ∧ _ ∧ _ ∧ _))

/-- The exact number of `Mine` cells among the in-bounds grid neighbors of
`(x, y)` (the claims' notion of the digit invariant). -/
def specNeighborMines (tiles : Nat → Nat → Tile) (width height x y : Nat) : Nat :=
  (((Finset.range width) ×ˢ (Finset.range height)).filter
    fun p => adjacentCells x y p.1 p.2 ∧ tiles p.1 p.2 = Tile.Mine).card

/-- The digit invariant: every in-bounds `Safe` cell stores exactly its
neighbor mine count. -/
def digitsOk (b : Board) : Prop :=
  ∀ x < b.width, ∀ y < b.height, ∀ d,
    b.tiles x y = Tile.Safe d →
      d.toInt = specNeighborMines b.tiles b.width b.height x y

/-- Number of `Mine` cells of a `width × height` grid. -/
def gridMines (w h : Nat) (t : Nat → Nat → Tile) : Nat :=
  (((Finset.range w) ×ˢ (Finset.range h)).filter
    fun p => t p.1 p.2 = Tile.Mine).card

/-- Number of in-bounds `Mine` cells of a board. -/
def mineCount (b : Board) : Nat :=
  gridMines b.width b.height b.tiles

/-- Number of in-bounds `Hidden` cells. -/
def hiddenCount (b : Board) : Nat :=
  (((Finset.range b.width) ×ˢ (Finset.range b.height)).filter
    fun p => b.display p.1 p.2 = TileDisplay.Hidden).card

/-- Iterated toggling at one cell (the claims' "toggling a cell n times"). -/
def toggleNTimes (b : Board) (x y : Nat) : Nat → RRes (TileDisplay × Board)
  | 0 => .ok (b.display x y, b)
  | n + 1 =>
    match toggleNTimes b x y n with
    | .ok (_, b') => toggleDisplayAt b' x y
    | .err e => .err e
    | .panicked => .panicked
    | .noFuel => .noFuel

/-- The display value of a toggle result. -/
def dispOf : RRes (TileDisplay × Board) → Option TileDisplay
  | .ok (d, _) => some d
  | _ => none

/-- The tile value of a reveal result. -/
def tileOf : RRes (Tile × Board × Nat) → Option Tile
  | .ok (t, _, _) => some t
  | _ => none

/-- What a reveal-family operation may do to a board once the game has
started: geometry, mine total and tiles are untouched, the started flag
stays set, and a display cell either keeps its value or becomes
`Revealed`. -/
def Evolves (b b' : Board) : Prop :=
  b'.width = b.width ∧ b'.height = b.height ∧ b'.mines = b.mines ∧
  b'.tiles = b.tiles ∧ b'.any_revealed = true ∧
  ∀ u v, b'.display u v = b.display u v ∨ b'.display u v = TileDisplay.Revealed

/-- The connected zero-digit region of the click: in-bounds cells reachable
from `(x, y)` through 8-connected chains of `Safe(0)` cells. -/
inductive InZeroRegion (b : Board) (x y : Nat) : Nat → Nat → Prop where
  | base : x < b.width → y < b.height → b.tiles x y = Tile.Safe .Zero →
      InZeroRegion b x y x y
  | step {u v u' v' : Nat} : InZeroRegion b x y u v → adjacentCells u v u' v' →
      u' < b.width → v' < b.height → b.tiles u' v' = Tile.Safe .Zero →
      InZeroRegion b x y u' v'

/-- The zero-digit region together with its immediate border. -/
def InZeroClosure (b : Board) (x y u v : Nat) : Prop :=
  InZeroRegion b x y u v ∨
    ∃ p q, InZeroRegion b x y p q ∧ adjacentCells p q u v ∧
      u < b.width ∧ v < b.height

/-- The cascade invariant between a board and a later board: any zero cell
newly revealed in between has each in-bounds neighbor either revealed, or
left unchanged in a non-`Hidden` state. -/
def GoodStep (c c' : Board) : Prop :=
  ∀ u v, u < c.width → v < c.height → c.tiles u v = Tile.Safe .Zero →
    c.display u v ≠ TileDisplay.Revealed →
    c'.display u v = TileDisplay.Revealed →
    ∀ p q, p < c.width → q < c.height → adjacentCells u v p q →
      c'.display p q = TileDisplay.Revealed ∨
      (c'.display p q = c.display p q ∧ c.display p q ≠ TileDisplay.Hidden)

/-! ### Concrete boards used by counterexamples and witnesses -/

/-- Identity stream standing in for the process rng. -/
def gId : Nat → Nat := fun n => n

/-- A started 1×1 board with its single safe cell hidden. -/
def tinyBoard : Board :=
  { tiles := fun _ _ => Tile.Safe .Zero,
    display := fun _ _ => TileDisplay.Hidden,
    width := 1, height := 1, mines := 0, any_revealed := true }

/-- Tiles of a 3×1 strip `Mine | Safe(1) | Safe(0)`. -/
def stripTiles : Nat → Nat → Tile := fun u v =>
  if u = 0 ∧ v = 0 then Tile.Mine
  else if u = 1 ∧ v = 0 then Tile.Safe .One
  else Tile.Safe .Zero

/-- A started 3×1 board `Mine | Safe(1) | Safe(0)` whose middle cell is
revealed and whose outer cells are hidden. -/
def chordBoard : Board :=
  { tiles := stripTiles,
    display := fun u v =>
      if u = 1 ∧ v = 0 then TileDisplay.Revealed else TileDisplay.Hidden,
    width := 3, height := 1, mines := 1, any_revealed := true }

/-- A started mine-free 3×1 board, all zero digits, with a flag on the
middle cell and the others hidden. -/
def flagBoard : Board :=
  { tiles := fun _ _ => Tile.Safe .Zero,
    display := fun u v =>
      if u = 1 ∧ v = 0 then TileDisplay.Flag else TileDisplay.Hidden,
    width := 3, height := 1, mines := 0, any_revealed := true }

/-- A started mine-free 2×1 board with correct digits, left cell revealed,
right cell hidden. -/
def chord2Board : Board :=
  { tiles := updateDigits (fun _ _ => Tile.Safe .Zero) 1 2,
    display := fun u v =>
      if u = 0 ∧ v = 0 then TileDisplay.Revealed else TileDisplay.Hidden,
    width := 2, height := 1, mines := 0, any_revealed := true }

/-- A fresh 3×3 one-mine board with the mine at `(1, 1)`. -/
def fcBoard : Board :=
  { tiles := updateDigits
      (fun u v => if u = 1 ∧ v = 1 then Tile.Mine else Tile.Safe .Zero) 3 3,
    display := fun _ _ => TileDisplay.Hidden,
    width := 3, height := 3, mines := 1, any_revealed := false }

/-- The first reveal of `fcBoard`, at its corner `(0, 0)`. -/
def fcRun : RRes (Tile × Board × Nat) := revealAt gId 200 fcBoard 0 0 0

/-- The board after that first reveal. -/
def fcAfter : Board :=
  match fcRun with
  | .ok (_, b, _) => b
  | _ => default

/-- A `Board.new` run on the identity stream. -/
def newRun : RRes (Board × Nat) := Board.new gId 20 3 3 2 0

/-- The board constructed by that run. -/
def newBoard : Board :=
  match newRun with
  | .ok (b, _) => b
  | _ => default

/-! ## Theorems -/

/-! ### The adjacency-count identity -/

theorem sum_range_tri (f : Nat → Nat) (c n : Nat)
    (hf : ∀ v, ¬(v ≤ c + 1 ∧ c ≤ v + 1) → f v = 0) :
    ∑ v ∈ Finset.range n, f v =
      (if 0 < c ∧ c - 1 < n then f (c - 1) else 0) +
      (if c < n then f c else 0) +
      (if c + 1 < n then f (c + 1) else 0) := by
  induction n with
  | zero => simp
  | succ n ih =>
    rw [Finset.sum_range_succ, ih]
    by_cases h2 : n = c
    · subst h2
      rw [if_congr (show (0 < n ∧ n - 1 < n + 1) ↔ (0 < n ∧ n - 1 < n) by omega)
            rfl rfl,
          if_pos (show n < n + 1 by omega), if_neg (show ¬(n < n) by omega),
          if_neg (show ¬(n + 1 < n) by omega),
          if_neg (show ¬(n + 1 < n + 1) by omega)]
      omega
    · by_cases h1 : 0 < c ∧ n = c - 1
      · obtain ⟨hc, h1⟩ := h1
        subst h1
        rw [if_neg (show ¬(0 < c ∧ c - 1 < c - 1) by omega),
            if_pos (show 0 < c ∧ c - 1 < c - 1 + 1 by omega),
            if_neg (show ¬(c < c - 1) by omega),
            if_neg (show ¬(c < c - 1 + 1) by omega),
            if_neg (show ¬(c + 1 < c - 1) by omega),
            if_neg (show ¬(c + 1 < c - 1 + 1) by omega)]
        omega
      · by_cases h3 : n = c + 1
        · subst h3
          rw [if_congr (show (0 < c ∧ c - 1 < c + 1 + 1) ↔ (0 < c ∧ c - 1 < c + 1)
                by omega) rfl rfl,
              if_pos (show c < c + 1 by omega),
              if_pos (show c < c + 1 + 1 by omega),
              if_neg (show ¬(c + 1 < c + 1) by omega),
              if_pos (show c + 1 < c + 1 + 1 by omega)]
          omega
        · have hz : f n = 0 := hf n (by omega)
          rw [if_congr (show (0 < c ∧ c - 1 < n + 1) ↔ (0 < c ∧ c - 1 < n) by omega)
                rfl rfl,
              if_congr (show (c < n + 1) ↔ (c < n) by omega) rfl rfl,
              if_congr (show (c + 1 < n + 1) ↔ (c + 1 < n) by omega) rfl rfl]
          omega

theorem ite_add3 (P : Prop) [Decidable P] (a b c : Nat) :
    (if P then a + b + c else 0) =
      (if P then a else 0) + (if P then b else 0) + (if P then c else 0) := by
  split_ifs <;> omega

theorem spec_term_eq (P1 P2 Q A M : Prop)
    [Decidable P1] [Decidable P2] [Decidable Q] [Decidable A] [Decidable M]
    (h1 : P1 ∧ P2 ↔ Q) (h2 : P1 → P2 → A) :
    (if P1 then (if P2 then (if A ∧ M then 1 else 0) else 0) else 0) =
      (if Q then (if M then 1 else 0) else 0) := by
  by_cases hp1 : P1
  · rw [if_pos hp1]
    by_cases hp2 : P2
    · rw [if_pos hp2, if_pos (h1.mp ⟨hp1, hp2⟩)]
      have ha := h2 hp1 hp2
      by_cases hm : M
      · rw [if_pos ⟨ha, hm⟩, if_pos hm]
      · rw [if_neg (fun cc => hm cc.2), if_neg hm]
    · rw [if_neg hp2, if_neg (fun q => hp2 (h1.mpr q).2)]
  · rw [if_neg hp1, if_neg (fun q => hp1 (h1.mpr q).1)]

theorem spec_term_center (P1 P2 A M : Prop)
    [Decidable P1] [Decidable P2] [Decidable A] [Decidable M] (h2 : ¬A) :
    (if P1 then (if P2 then (if A ∧ M then 1 else 0) else 0) else 0) = 0 := by
  by_cases hp1 : P1
  · rw [if_pos hp1]
    by_cases hp2 : P2
    · rw [if_pos hp2, if_neg (fun cc => h2 cc.1)]
    · rw [if_neg hp2]
  · rw [if_neg hp1]

/-- The count accumulated by `update_digits`'s eight guarded checks equals
the exact number of mines among the in-bounds 8-neighbors. -/
theorem countsAt_eq_spec (t : Nat → Nat → Tile) (w h x y : Nat)
    (hx : x < w) (hy : y < h) :
    countsAt t w h x y = specNeighborMines t w h x y := by
  unfold specNeighborMines
  rw [Finset.card_filter, Finset.sum_product]
  have inner : ∀ u,
      (∑ v ∈ Finset.range h,
        if adjacentCells x y u v ∧ t u v = Tile.Mine then 1 else 0) =
      (if 0 < y ∧ y - 1 < h then
        (if adjacentCells x y u (y - 1) ∧ t u (y - 1) = Tile.Mine then 1 else 0) else 0) +
      (if y < h then
        (if adjacentCells x y u y ∧ t u y = Tile.Mine then 1 else 0) else 0) +
      (if y + 1 < h then
        (if adjacentCells x y u (y + 1) ∧ t u (y + 1) = Tile.Mine then 1 else 0) else 0) := by
    intro u
    exact sum_range_tri _ y h fun v hv =>
      if_neg fun cc => hv ⟨cc.1.2.2.1, cc.1.2.2.2.1⟩
  simp only [inner]
  rw [sum_range_tri _ x w (fun u hu => by
    have hz : ∀ v,
        (if adjacentCells x y u v ∧ t u v = Tile.Mine then 1 else 0) = 0 :=
      fun v => if_neg fun cc => hu ⟨cc.1.1, cc.1.2.1⟩
    rw [hz, hz, hz]
    simp)]
  rw [ite_add3, ite_add3, ite_add3]
  rw [spec_term_eq (0 < x ∧ x - 1 < w) (0 < y ∧ y - 1 < h) (0 < x ∧ 0 < y)
        (adjacentCells x y (x - 1) (y - 1)) (t (x - 1) (y - 1) = Tile.Mine)
        (by omega) (fun h1 h2 => by unfold adjacentCells; omega),
      spec_term_eq (0 < x ∧ x - 1 < w) (y < h) (0 < x)
        (adjacentCells x y (x - 1) y) (t (x - 1) y = Tile.Mine)
        (by omega) (fun h1 h2 => by unfold adjacentCells; omega),
      spec_term_eq (0 < x ∧ x - 1 < w) (y + 1 < h) (0 < x ∧ y < h - 1)
        (adjacentCells x y (x - 1) (y + 1)) (t (x - 1) (y + 1) = Tile.Mine)
        (by omega) (fun h1 h2 => by unfold adjacentCells; omega),
      spec_term_eq (x < w) (0 < y ∧ y - 1 < h) (0 < y)
        (adjacentCells x y x (y - 1)) (t x (y - 1) = Tile.Mine)
        (by omega) (fun h1 h2 => by unfold adjacentCells; omega),
      spec_term_center (x < w) (y < h) (adjacentCells x y x y)
        (t x y = Tile.Mine) (by unfold adjacentCells; omega),
      spec_term_eq (x < w) (y + 1 < h) (y < h - 1)
        (adjacentCells x y x (y + 1)) (t x (y + 1) = Tile.Mine)
        (by omega) (fun h1 h2 => by unfold adjacentCells; omega),
      spec_term_eq (x + 1 < w) (0 < y ∧ y - 1 < h) (x < w - 1 ∧ 0 < y)
        (adjacentCells x y (x + 1) (y - 1)) (t (x + 1) (y - 1) = Tile.Mine)
        (by omega) (fun h1 h2 => by unfold adjacentCells; omega),
      spec_term_eq (x + 1 < w) (y < h) (x < w - 1)
        (adjacentCells x y (x + 1) y) (t (x + 1) y = Tile.Mine)
        (by omega) (fun h1 h2 => by unfold adjacentCells; omega),
      spec_term_eq (x + 1 < w) (y + 1 < h) (x < w - 1 ∧ y < h - 1)
        (adjacentCells x y (x + 1) (y + 1)) (t (x + 1) (y + 1) = Tile.Mine)
        (by omega) (fun h1 h2 => by unfold adjacentCells; omega)]
  unfold countsAt
  ring

theorem countsAt_le_eight (t : Nat → Nat → Tile) (w h x y : Nat) :
    countsAt t w h x y ≤ 8 := by
  have H : ∀ (P Q : Prop) [Decidable P] [Decidable Q],
      (if P then (if Q then (1 : Nat) else 0) else 0) ≤ 1 := by
    intro P Q _ _
    split_ifs <;> omega
  unfold countsAt
  have h1 := H (0 < y) (t x (y - 1) = Tile.Mine)
  have h2 := H (y < h - 1) (t x (y + 1) = Tile.Mine)
  have h3 := H (x < w - 1 ∧ y < h - 1) (t (x + 1) (y + 1) = Tile.Mine)
  have h4 := H (x < w - 1) (t (x + 1) y = Tile.Mine)
  have h5 := H (x < w - 1 ∧ 0 < y) (t (x + 1) (y - 1) = Tile.Mine)
  have h6 := H (0 < x ∧ y < h - 1) (t (x - 1) (y + 1) = Tile.Mine)
  have h7 := H (0 < x) (t (x - 1) y = Tile.Mine)
  have h8 := H (0 < x ∧ 0 < y) (t (x - 1) (y - 1) = Tile.Mine)
  omega

theorem fromInt_toInt (n : Nat) (hn : n ≤ 9) :
    ((Digit.fromInt? n).getD .Zero).toInt = n := by
  interval_cases n <;> rfl

theorem updateDigits_mine_iff (t : Nat → Nat → Tile) (h w x y : Nat) :
    updateDigits t h w x y = Tile.Mine ↔ t x y = Tile.Mine := by
  unfold updateDigits
  split_ifs with hcond
  · simp [hcond.2.2]
  · exact Iff.rfl

theorem specNeighborMines_congr (t t' : Nat → Nat → Tile) (w h x y : Nat)
    (hmm : ∀ u v, u < w → v < h → (t u v = Tile.Mine ↔ t' u v = Tile.Mine)) :
    specNeighborMines t w h x y = specNeighborMines t' w h x y := by
  unfold specNeighborMines
  congr 1
  apply Finset.filter_congr
  intro p hp
  simp only [Finset.mem_product, Finset.mem_range] at hp
  rw [hmm p.1 p.2 hp.1 hp.2]

/-- The digit invariant holds of any grid produced by `update_digits`. -/
theorem updateDigits_digitsOk (t : Nat → Nat → Tile) (w h : Nat) :
    ∀ x < w, ∀ y < h, ∀ d, updateDigits t h w x y = Tile.Safe d →
      d.toInt = specNeighborMines (updateDigits t h w) w h x y := by
  intro x hx y hy d hd
  unfold updateDigits at hd
  by_cases hm : t x y = Tile.Mine
  · rw [if_neg (fun c => c.2.2 hm)] at hd
    rw [hm] at hd
    exact Tile.noConfusion hd
  · rw [if_pos ⟨hx, hy, hm⟩] at hd
    injection hd with hd
    subst hd
    rw [fromInt_toInt _ (le_trans (countsAt_le_eight t w h x y) (by omega)),
      countsAt_eq_spec t w h x y hx hy]
    exact specNeighborMines_congr t (updateDigits t h w) w h x y
      fun u v _ _ => (updateDigits_mine_iff t h w u v).symm

/-! ### Equation lemmas and evolution of the reveal family -/

theorem revealAt_zero (g : Nat → Nat) (b : Board) (rpos x y : Nat) :
    revealAt g 0 b rpos x y = .noFuel := rfl

theorem revealAdjacent_zero (g : Nat → Nat) (b : Board) (rpos x y : Nat) :
    revealAdjacent g 0 b rpos x y = .noFuel := rfl

theorem chordFold_zero (g : Nat → Nat) (l : List (Nat × Nat)) (b : Board)
    (rpos : Nat) : chordFold g 0 l b rpos = .noFuel := rfl

theorem revealAt_oob (g : Nat → Nat) (fuel : Nat) (b : Board) (rpos x y : Nat)
    (hb : x ≥ b.width ∨ y ≥ b.height) :
    revealAt g (fuel + 1) b rpos x y =
      .err "x and y must be less than width and height" := by
  rw [revealAt, if_pos hb]

/-- Unfolding `reveal_at` for an in-bounds click on a started board. -/
theorem revealAt_started (g : Nat → Nat) (fuel : Nat) (b : Board)
    (rpos x y : Nat) (hrev : b.any_revealed = true)
    (hx : x < b.width) (hy : y < b.height) :
    revealAt g (fuel + 1) b rpos x y =
      (if b.tiles x y = Tile.Safe .Zero then
        match revealAdjacent g fuel
            { b with any_revealed := true,
                     display := upd b.display x y TileDisplay.Revealed }
            rpos x y with
        | .ok (_, b3, r3) => .ok (b3.tiles x y, b3, r3)
        | .err _ => .panicked
        | .panicked => .panicked
        | .noFuel => .noFuel
       else .ok (b.tiles x y,
         { b with any_revealed := true,
                  display := upd b.display x y TileDisplay.Revealed }, rpos)) := by
  rw [revealAt, if_neg (by omega), hrev]
  simp only [Bool.not_true, Bool.false_eq_true, if_false]

theorem readDisplay_in (b : Board) (x y : Nat) (hx : x < b.width)
    (hy : y < b.height) : readDisplay b x y = .ok (b.display x y) := by
  unfold readDisplay
  rw [if_pos hx, if_pos hy]

/-- Unfolding `reveal_adjacent` at an in-bounds revealed cell. -/
theorem revealAdjacent_eq (g : Nat → Nat) (fuel : Nat) (b : Board)
    (rpos x y : Nat) (hx : x < b.width) (hy : y < b.height)
    (hd : b.display x y = TileDisplay.Revealed) :
    revealAdjacent g (fuel + 1) b rpos x y =
      chordFold g fuel (adjOrder b.width b.height x y) b rpos := by
  rw [revealAdjacent, readDisplay_in b x y hx hy]
  simp [hd]

theorem revealAdjacent_not_revealed (g : Nat → Nat) (fuel : Nat) (b : Board)
    (rpos x y : Nat) (hx : x < b.width) (hy : y < b.height)
    (hd : b.display x y ≠ TileDisplay.Revealed) :
    revealAdjacent g (fuel + 1) b rpos x y =
      .err "Shouldn't try to reveal adjacent to unrevealed tile" := by
  rw [revealAdjacent, readDisplay_in b x y hx hy]
  simp [hd]

theorem evolves_trans {a b c : Board} (h1 : Evolves a b) (h2 : Evolves b c) :
    Evolves a c := by
  obtain ⟨w1, h1', m1, t1, r1, d1⟩ := h1
  obtain ⟨w2, h2', m2, t2, r2, d2⟩ := h2
  refine ⟨w2.trans w1, h2'.trans h1', m2.trans m1, t2.trans t1, r2, fun u v => ?_⟩
  rcases d2 u v with e | e
  · rw [e]
    exact d1 u v
  · exact Or.inr e

theorem evolves_refl {b : Board} (h : b.any_revealed = true) : Evolves b b :=
  ⟨rfl, rfl, rfl, rfl, h, fun _ _ => Or.inl rfl⟩

theorem evolves_set_revealed (b : Board) (x y : Nat) :
    Evolves b { b with any_revealed := true,
                       display := upd b.display x y TileDisplay.Revealed } := by
  refine ⟨rfl, rfl, rfl, rfl, rfl, fun u v => ?_⟩
  by_cases h : u = x ∧ v = y
  · exact Or.inr (by simp [upd, h])
  · exact Or.inl (by simp [upd, h])

theorem revealAdjacent_oob (g : Nat → Nat) (fuel : Nat) (b : Board)
    (rpos x y : Nat) (hb : x ≥ b.width ∨ y ≥ b.height) :
    revealAdjacent g (fuel + 1) b rpos x y = .panicked := by
  have hrd : readDisplay b x y = .panicked := by
    unfold readDisplay
    rcases hb with hh | hh
    · rw [if_neg (by omega)]
    · by_cases hx : x < b.width
      · rw [if_pos hx, if_neg (by omega)]
      · rw [if_neg hx]
  rw [revealAdjacent, hrd]

/-- Once the game has started, each function of the reveal family can only
evolve the board: tiles, geometry and mine total are fixed and display
cells only ever become `Revealed`. -/
theorem evolves_main (g : Nat → Nat) : ∀ fuel : Nat,
    (∀ b rpos x y t b' r', b.any_revealed = true →
      revealAt g fuel b rpos x y = .ok (t, b', r') → Evolves b b') ∧
    (∀ b rpos x y hit b' r', b.any_revealed = true →
      revealAdjacent g fuel b rpos x y = .ok (hit, b', r') → Evolves b b') ∧
    (∀ l b rpos hit b' r', b.any_revealed = true →
      chordFold g fuel l b rpos = .ok (hit, b', r') → Evolves b b') := by
  intro fuel
  induction fuel with
  | zero =>
    refine ⟨fun b rpos x y t b' r' hrev hok => ?_,
            fun b rpos x y hit b' r' hrev hok => ?_,
            fun l b rpos hit b' r' hrev hok => ?_⟩
    · rw [revealAt_zero] at hok
      exact RRes.noConfusion hok
    · rw [revealAdjacent_zero] at hok
      exact RRes.noConfusion hok
    · rw [chordFold_zero] at hok
      exact RRes.noConfusion hok
  | succ fuel ih =>
    obtain ⟨ihA, ihB, ihC⟩ := ih
    refine ⟨fun b rpos x y t b' r' hrev hok => ?_,
            fun b rpos x y hit b' r' hrev hok => ?_,
            fun l b rpos hit b' r' hrev hok => ?_⟩
    · by_cases hb : x ≥ b.width ∨ y ≥ b.height
      · rw [revealAt_oob g fuel b rpos x y hb] at hok
        exact RRes.noConfusion hok
      · rw [revealAt_started g fuel b rpos x y hrev (by omega) (by omega)] at hok
        by_cases hz : b.tiles x y = Tile.Safe .Zero
        · rw [if_pos hz] at hok
          split at hok
          · rename_i hv b3 r3 heq
            simp only [RRes.ok.injEq, Prod.mk.injEq] at hok
            obtain ⟨-, h2, -⟩ := hok
            subst h2
            exact evolves_trans (evolves_set_revealed b x y)
              (ihB _ rpos x y hv b3 r3 rfl heq)
          · exact RRes.noConfusion hok
          · exact RRes.noConfusion hok
          · exact RRes.noConfusion hok
        · rw [if_neg hz] at hok
          simp only [RRes.ok.injEq, Prod.mk.injEq] at hok
          obtain ⟨-, h2, -⟩ := hok
          subst h2
          exact evolves_set_revealed b x y
    · by_cases hb : x ≥ b.width ∨ y ≥ b.height
      · rw [revealAdjacent_oob g fuel b rpos x y hb] at hok
        exact RRes.noConfusion hok
      · by_cases hd : b.display x y = TileDisplay.Revealed
        · rw [revealAdjacent_eq g fuel b rpos x y (by omega) (by omega) hd] at hok
          exact ihC _ b rpos hit b' r' hrev hok
        · rw [revealAdjacent_not_revealed g fuel b rpos x y (by omega) (by omega) hd]
            at hok
          exact RRes.noConfusion hok
    · cases l with
      | nil =>
        simp only [chordFold] at hok
        simp only [RRes.ok.injEq, Prod.mk.injEq] at hok
        obtain ⟨-, h2, -⟩ := hok
        subst h2
        exact evolves_refl hrev
      | cons p rest =>
        simp only [chordFold] at hok
        split at hok
        · split at hok
          · rename_i hh tv bi ri heq
            split at hok
            · simp only [RRes.ok.injEq, Prod.mk.injEq] at hok
              obtain ⟨-, h2, -⟩ := hok
              exact h2 ▸ ihA b rpos p.1 p.2 tv bi ri hrev heq
            · have hev := ihA b rpos p.1 p.2 tv bi ri hrev heq
              exact evolves_trans hev
                (ihC rest bi ri hit b' r' hev.2.2.2.2.1 hok)
          · exact ihC rest b rpos hit b' r' hrev hok
          · exact RRes.noConfusion hok
          · exact RRes.noConfusion hok
        · exact ihC rest b rpos hit b' r' hrev hok

/-! ### Counting and membership lemmas -/

theorem mem_ite_nil {α : Type} {c : Prop} [Decidable c] {p : α} {l : List α} :
    p ∈ (if c then l else []) ↔ c ∧ p ∈ l := by
  split_ifs with h <;> simp [h]

theorem gridMines_upd_mine (w h : Nat) (t : Nat → Nat → Tile) (u v : Nat)
    (hu : u < w) (hv : v < h) (hnot : t u v ≠ Tile.Mine) :
    gridMines w h (upd t u v Tile.Mine) = gridMines w h t + 1 := by
  unfold gridMines
  have hset : ((Finset.range w ×ˢ Finset.range h).filter
        fun p => upd t u v Tile.Mine p.1 p.2 = Tile.Mine)
      = insert (u, v) ((Finset.range w ×ˢ Finset.range h).filter
        fun p => t p.1 p.2 = Tile.Mine) := by
    ext p
    simp only [Finset.mem_insert, Finset.mem_filter, Finset.mem_product,
      Finset.mem_range, upd]
    constructor
    · rintro ⟨⟨hb1, hb2⟩, h3⟩
      by_cases hp : p.1 = u ∧ p.2 = v
      · exact Or.inl (Prod.ext hp.1 hp.2)
      · rw [if_neg hp] at h3
        exact Or.inr ⟨⟨hb1, hb2⟩, h3⟩
    · rintro (rfl | ⟨⟨hb1, hb2⟩, h3⟩)
      · exact ⟨⟨hu, hv⟩, by rw [if_pos ⟨rfl, rfl⟩]⟩
      · refine ⟨⟨hb1, hb2⟩, ?_⟩
        by_cases hp : p.1 = u ∧ p.2 = v
        · rw [if_pos hp]
        · rw [if_neg hp]
          exact h3
  rw [hset, Finset.card_insert_of_not_mem]
  intro hmem
  rw [Finset.mem_filter] at hmem
  exact hnot hmem.2

theorem gridMines_upd_clear (w h : Nat) (t : Nat → Nat → Tile) (u v : Nat)
    (hu : u < w) (hv : v < h) (hm : t u v = Tile.Mine) :
    gridMines w h (upd t u v (Tile.Safe .Zero)) + 1 = gridMines w h t := by
  unfold gridMines
  have hset : ((Finset.range w ×ˢ Finset.range h).filter
        fun p => upd t u v (Tile.Safe .Zero) p.1 p.2 = Tile.Mine)
      = ((Finset.range w ×ˢ Finset.range h).filter
        fun p => t p.1 p.2 = Tile.Mine).erase (u, v) := by
    ext p
    simp only [Finset.mem_erase, Finset.mem_filter, Finset.mem_product,
      Finset.mem_range, upd]
    constructor
    · rintro ⟨⟨hb1, hb2⟩, h3⟩
      by_cases hp : p.1 = u ∧ p.2 = v
      · rw [if_pos hp] at h3
        exact absurd h3 (by simp)
      · rw [if_neg hp] at h3
        refine ⟨fun e => hp ?_, ⟨hb1, hb2⟩, h3⟩
        rw [e]
        exact ⟨rfl, rfl⟩
    · rintro ⟨hne, ⟨hb1, hb2⟩, h3⟩
      refine ⟨⟨hb1, hb2⟩, ?_⟩
      rw [if_neg fun hp => hne (Prod.ext hp.1 hp.2)]
      exact h3
  rw [hset, Finset.card_erase_add_one]
  rw [Finset.mem_filter]
  exact ⟨Finset.mem_product.mpr
    ⟨Finset.mem_range.mpr hu, Finset.mem_range.mpr hv⟩, hm⟩

theorem gridMines_congr (w h : Nat) (t t' : Nat → Nat → Tile)
    (hmm : ∀ u v, u < w → v < h → (t u v = Tile.Mine ↔ t' u v = Tile.Mine)) :
    gridMines w h t = gridMines w h t' := by
  unfold gridMines
  congr 1
  apply Finset.filter_congr
  intro p hp
  simp only [Finset.mem_product, Finset.mem_range] at hp
  rw [hmm p.1 p.2 hp.1 hp.2]

theorem gridMines_updateDigits (w h : Nat) (t : Nat → Nat → Tile) :
    gridMines w h (updateDigits t h w) = gridMines w h t :=
  gridMines_congr w h _ t fun u v _ _ => updateDigits_mine_iff t h w u v

theorem remStep_count (w h : Nat) (t : Nat → Nat → Tile) (u v removed : Nat)
    (hu : u < w) (hv : v < h) :
    gridMines w h (remStep t u v removed).1 + (remStep t u v removed).2 =
      gridMines w h t + removed := by
  unfold remStep
  split_ifs with hm
  · dsimp only
    have := gridMines_upd_clear w h t u v hu hv hm
    omega
  · rfl

theorem remStep_grid_other (t : Nat → Nat → Tile) (u v removed a b : Nat)
    (hne : ¬(a = u ∧ b = v)) : (remStep t u v removed).1 a b = t a b := by
  unfold remStep
  split_ifs with hm
  · dsimp only [upd]
    rw [if_neg hne]
  · rfl

theorem remStep_clears (t : Nat → Nat → Tile) (u v removed : Nat) :
    (remStep t u v removed).1 u v ≠ Tile.Mine := by
  unfold remStep
  split_ifs with hm
  · simp [upd]
  · simpa using hm

theorem remStep_no_new_mine (t : Nat → Nat → Tile) (u v removed a b : Nat)
    (h : t a b ≠ Tile.Mine) : (remStep t u v removed).1 a b ≠ Tile.Mine := by
  unfold remStep
  split_ifs with hm
  · dsimp only [upd]
    split_ifs with hp
    · simp
    · exact h
  · exact h

theorem foldRem_count (w h : Nat) : ∀ (l : List (Nat × Nat))
    (t : Nat → Nat → Tile) (r : Nat), (∀ p ∈ l, p.1 < w ∧ p.2 < h) →
    gridMines w h
        (l.foldl (fun s p => remStep s.1 p.1 p.2 s.2) (t, r)).1 +
      (l.foldl (fun s p => remStep s.1 p.1 p.2 s.2) (t, r)).2 =
      gridMines w h t + r := by
  intro l
  induction l with
  | nil => intro t r _; rfl
  | cons p rest ih =>
    intro t r hmem
    have hb := hmem p (List.mem_cons_self p rest)
    rcases hrs : remStep t p.1 p.2 r with ⟨t1, r1⟩
    rw [List.foldl_cons]
    dsimp only
    rw [hrs]
    have hstep := remStep_count w h t p.1 p.2 r hb.1 hb.2
    rw [hrs] at hstep
    dsimp only at hstep
    have hih := ih t1 r1 fun q hq => hmem q (List.mem_cons_of_mem p hq)
    omega

theorem foldRem_no_new_mine : ∀ (l : List (Nat × Nat))
    (t : Nat → Nat → Tile) (r a b : Nat), t a b ≠ Tile.Mine →
    (l.foldl (fun s p => remStep s.1 p.1 p.2 s.2) (t, r)).1 a b ≠ Tile.Mine := by
  intro l
  induction l with
  | nil => intro t r a b hab; exact hab
  | cons p rest ih =>
    intro t r a b hab
    rcases hrs : remStep t p.1 p.2 r with ⟨t1, r1⟩
    rw [List.foldl_cons]
    dsimp only
    rw [hrs]
    apply ih
    have := remStep_no_new_mine t p.1 p.2 r a b hab
    rw [hrs] at this
    exact this

theorem foldRem_clears : ∀ (l : List (Nat × Nat))
    (t : Nat → Nat → Tile) (r : Nat), ∀ p ∈ l,
    (l.foldl (fun s p => remStep s.1 p.1 p.2 s.2) (t, r)).1 p.1 p.2 ≠
      Tile.Mine := by
  intro l
  induction l with
  | nil => intro t r p hp; exact absurd hp (List.not_mem_nil p)
  | cons q rest ih =>
    intro t r p hp
    rcases hrs : remStep t q.1 q.2 r with ⟨t1, r1⟩
    rw [List.foldl_cons]
    dsimp only
    rw [hrs]
    rcases List.mem_cons.mp hp with rfl | hp'
    · apply foldRem_no_new_mine
      have := remStep_clears t p.1 p.2 r
      rw [hrs] at this
      exact this
    · exact ih t1 r1 p hp'

theorem foldRem_outside : ∀ (l : List (Nat × Nat))
    (t : Nat → Nat → Tile) (r a b : Nat), (∀ p ∈ l, ¬(a = p.1 ∧ b = p.2)) →
    (l.foldl (fun s p => remStep s.1 p.1 p.2 s.2) (t, r)).1 a b = t a b := by
  intro l
  induction l with
  | nil => intro t r a b _; rfl
  | cons p rest ih =>
    intro t r a b hne
    rcases hrs : remStep t p.1 p.2 r with ⟨t1, r1⟩
    rw [List.foldl_cons]
    dsimp only
    rw [hrs]
    have h1 := ih t1 r1 a b fun q hq => hne q (List.mem_cons_of_mem p hq)
    rw [h1]
    have h2 := remStep_grid_other t p.1 p.2 r a b
      (hne p (List.mem_cons_self p rest))
    rw [hrs] at h2
    exact h2

set_option maxHeartbeats 1000000 in
theorem mem_removeOrder (w h x y u v : Nat) (hx : x < w) (hy : y < h)
    (h1 : u ≤ x + 1) (h2 : x ≤ u + 1) (h3 : v ≤ y + 1) (h4 : y ≤ v + 1)
    (hu : u < w) (hv : v < h) : (u, v) ∈ removeOrder w h x y := by
  unfold removeOrder
  simp only [mem_ite_nil, List.mem_append, List.mem_singleton, List.mem_cons,
    List.not_mem_nil, Prod.mk.injEq]
  omega

set_option maxHeartbeats 1000000 in
theorem removeOrder_bounds (w h x y : Nat) (hx : x < w) (hy : y < h) :
    ∀ p ∈ removeOrder w h x y, p.1 < w ∧ p.2 < h := by
  intro p hp
  obtain ⟨u, v⟩ := p
  unfold removeOrder at hp
  simp only [mem_ite_nil, List.mem_append, List.mem_singleton, List.mem_cons,
    List.not_mem_nil, Prod.mk.injEq, or_false] at hp
  dsimp only
  rcases hp with (((⟨rfl, rfl⟩ |
      ⟨hgx, (⟨rfl, rfl⟩ | ⟨hgy, rfl, rfl⟩) | ⟨hgy, rfl, rfl⟩⟩) |
      ⟨hgx, (⟨rfl, rfl⟩ | ⟨hgy, rfl, rfl⟩) | ⟨hgy, rfl, rfl⟩⟩) |
      ⟨hgy, rfl, rfl⟩) | ⟨hgy, rfl, rfl⟩ <;> omega

set_option maxHeartbeats 1000000 in
theorem mem_adjOrder (w h x y u v : Nat) (hx : x < w) (hy : y < h)
    (hu : u < w) (hv : v < h) (hadj : adjacentCells x y u v) :
    (u, v) ∈ adjOrder w h x y := by
  unfold adjacentCells at hadj
  unfold adjOrder
  simp only [mem_ite_nil, List.mem_append, List.mem_singleton, List.mem_cons,
    List.not_mem_nil, Prod.mk.injEq]
  omega

set_option maxHeartbeats 1000000 in
theorem adjOrder_spec (w h x y : Nat) (hx : x < w) (hy : y < h) :
    ∀ p ∈ adjOrder w h x y, p.1 < w ∧ p.2 < h ∧ adjacentCells x y p.1 p.2 := by
  intro p hp
  obtain ⟨u, v⟩ := p
  unfold adjOrder at hp
  simp only [mem_ite_nil, List.mem_append, List.mem_singleton, List.mem_cons,
    List.not_mem_nil, Prod.mk.injEq, or_false] at hp
  unfold adjacentCells
  dsimp only
  rcases hp with ((⟨hgx, (⟨rfl, rfl⟩ | ⟨hgy, rfl, rfl⟩) | ⟨hgy, rfl, rfl⟩⟩ |
      ⟨hgx, (⟨rfl, rfl⟩ | ⟨hgy, rfl, rfl⟩) | ⟨hgy, rfl, rfl⟩⟩) |
      ⟨hgy, rfl, rfl⟩) | ⟨hgy, rfl, rfl⟩ <;> omega

/-! ### The relocation loop -/

theorem genRange_ok (g : Nat → Nat) (rpos lo hi m r' : Nat)
    (hok : genRange g rpos lo hi = .ok (m, r')) : lo ≤ m ∧ m < hi := by
  unfold genRange at hok
  split_ifs at hok with hlt
  · simp only [RRes.ok.injEq, Prod.mk.injEq] at hok
    obtain ⟨h1, -⟩ := hok
    subst h1
    have := Nat.mod_lt (g rpos) (show 0 < hi - lo by omega)
    omega

theorem pickCoord_axis_some (g : Nat → Nat) (c n rpos m r' lo1 hi1 lo2 hi2 : Nat)
    (haxis : axisRange c n = (lo1, hi1, lo2, hi2)) (hc : c < n)
    (hok : pickCoord g c n lo1 hi1 lo2 hi2 rpos = .ok (some (m, r'))) :
    m < n ∧ (m + 1 < c ∨ c + 1 < m) := by
  unfold axisRange at haxis
  have hleft : 0 < c → ∀ rp rr, genRange g rp lo1 hi1 = .ok (m, rr) →
      m < n ∧ (m + 1 < c ∨ c + 1 < m) := by
    intro hc0 rp rr hgr
    split_ifs at haxis
    simp only [Prod.mk.injEq] at haxis
    obtain ⟨e1, e2, -, -⟩ := haxis
    subst e1; subst e2
    have := genRange_ok g rp 0 (c - 1) m rr hgr
    omega
  have hright : ∀ rp rr, genRange g rp lo2 hi2 = .ok (m, rr) →
      m < n ∧ (m + 1 < c ∨ c + 1 < m) := by
    intro rp rr hgr
    split_ifs at haxis with h0 <;>
    · simp only [Prod.mk.injEq] at haxis
      obtain ⟨-, -, e3, e4⟩ := haxis
      subst e3; subst e4
      have := genRange_ok g rp (c + 2) n m rr hgr
      omega
  unfold pickCoord at hok
  split_ifs at hok with h1 h2 h3
  · rcases hgb : genBool g rpos with ⟨side, r1⟩
    rw [hgb] at hok
    dsimp only at hok
    split_ifs at hok with hside
    · split at hok
      · rename_i m2 r2 heq
        simp only [RRes.ok.injEq, Option.some.injEq, Prod.mk.injEq] at hok
        obtain ⟨e1, -⟩ := hok
        exact hleft h1.1 r1 r2 (e1 ▸ heq)
      · exact RRes.noConfusion hok
      · exact RRes.noConfusion hok
      · exact RRes.noConfusion hok
    · split at hok
      · rename_i m2 r2 heq
        simp only [RRes.ok.injEq, Option.some.injEq, Prod.mk.injEq] at hok
        obtain ⟨e1, -⟩ := hok
        exact hright r1 r2 (e1 ▸ heq)
      · exact RRes.noConfusion hok
      · exact RRes.noConfusion hok
      · exact RRes.noConfusion hok
  · split at hok
    · rename_i m2 r2 heq
      simp only [RRes.ok.injEq, Option.some.injEq, Prod.mk.injEq] at hok
      obtain ⟨e1, -⟩ := hok
      exact hleft h2 rpos r2 (e1 ▸ heq)
    · exact RRes.noConfusion hok
    · exact RRes.noConfusion hok
    · exact RRes.noConfusion hok
  · split at hok
    · rename_i m2 r2 heq
      simp only [RRes.ok.injEq, Option.some.injEq, Prod.mk.injEq] at hok
      obtain ⟨e1, -⟩ := hok
      exact hright rpos r2 (e1 ▸ heq)
    · exact RRes.noConfusion hok
    · exact RRes.noConfusion hok
    · exact RRes.noConfusion hok
  · simp at hok

theorem pickCoord_axis_none (g : Nat → Nat) (c n rpos lo1 hi1 lo2 hi2 : Nat)
    (hok : pickCoord g c n lo1 hi1 lo2 hi2 rpos = .ok none) :
    c = 0 ∧ n ≤ c + 2 := by
  unfold pickCoord at hok
  split_ifs at hok with h1 h2 h3
  · rcases hgb : genBool g rpos with ⟨side, r1⟩
    rw [hgb] at hok
    dsimp only at hok
    split_ifs at hok with hside <;>
    · split at hok
      · simp at hok
      · exact RRes.noConfusion hok
      · exact RRes.noConfusion hok
      · exact RRes.noConfusion hok
  · split at hok
    · simp at hok
    · exact RRes.noConfusion hok
    · exact RRes.noConfusion hok
    · exact RRes.noConfusion hok
  · split at hok
    · simp at hok
    · exact RRes.noConfusion hok
    · exact RRes.noConfusion hok
    · exact RRes.noConfusion hok
  · omega

/-- What one run of the re-insertion loop guarantees: the columns
`x - 1 .. x + 1` are untouched, the mine count never drops below its start,
rises by at most `removed`, and reaches exactly `removed` more unless an
axis had no room (the documented `break`). -/
theorem reinsert_spec (g : Nat → Nat) : ∀ (fuel : Nat) (t : Nat → Nat → Tile)
    (w h x y removed rpos : Nat) (t' : Nat → Nat → Tile) (r' : Nat),
    x < w → y < h →
    reinsert g fuel t w h x y removed rpos = .ok (t', r') →
    (∀ u v, u ≤ x + 1 → x ≤ u + 1 → t' u v = t u v) ∧
    gridMines w h t ≤ gridMines w h t' ∧
    gridMines w h t' ≤ gridMines w h t + removed ∧
    (¬((x = 0 ∧ w ≤ 2) ∨ (y = 0 ∧ h ≤ 2)) →
      gridMines w h t' = gridMines w h t + removed) := by
  intro fuel
  induction fuel with
  | zero =>
    intro t w h x y removed rpos t' r' hx hy hok
    exact RRes.noConfusion hok
  | succ fuel ih =>
    intro t w h x y removed rpos t' r' hx hy hok
    rw [reinsert] at hok
    by_cases hr : 0 < removed
    · rw [if_pos hr] at hok
      rcases hax : axisRange x w with ⟨xlo1, xhi1, xlo2, xhi2⟩
      rw [hax] at hok
      dsimp only at hok
      split at hok
      · -- x-axis break
        rename_i heqx
        simp only [RRes.ok.injEq, Prod.mk.injEq] at hok
        obtain ⟨e1, -⟩ := hok
        subst e1
        have hbx := pickCoord_axis_none g x w rpos xlo1 xhi1 xlo2 xhi2 heqx
        refine ⟨fun u v _ _ => rfl, le_refl _, by omega, fun hnb => absurd ?_ hnb⟩
        left
        omega
      · rename_i mx r1 heqx
        rcases hay : axisRange y h with ⟨ylo1, yhi1, ylo2, yhi2⟩
        rw [hay] at hok
        dsimp only at hok
        split at hok
        · -- y-axis break
          rename_i heqy
          simp only [RRes.ok.injEq, Prod.mk.injEq] at hok
          obtain ⟨e1, -⟩ := hok
          subst e1
          have hby := pickCoord_axis_none g y h r1 ylo1 yhi1 ylo2 yhi2 heqy
          refine ⟨fun u v _ _ => rfl, le_refl _, by omega, fun hnb => absurd ?_ hnb⟩
          right
          omega
        · rename_i my r2 heqy
          have hmx := pickCoord_axis_some g x w rpos mx r1 xlo1 xhi1 xlo2 xhi2
            hax hx heqx
          have hmy := pickCoord_axis_some g y h r1 my r2 ylo1 yhi1 ylo2 yhi2
            hay hy heqy
          split_ifs at hok with hmine
          · -- fresh cell: insert a mine and recurse
            have hcount := gridMines_upd_mine w h t mx my hmx.1 hmy.1 hmine
            have hrec := ih (upd t mx my Tile.Mine) w h x y (removed - 1) r2
              t' r' hx hy hok
            obtain ⟨hz, hlo, hhi, heqn⟩ := hrec
            refine ⟨?_, by omega, by omega, fun hnb => ?_⟩
            · intro u v hu1 hu2
              rw [hz u v hu1 hu2]
              unfold upd
              rw [if_neg]
              rintro ⟨rfl, rfl⟩
              omega
            · have := heqn hnb
              omega
          · have hrec := ih t w h x y removed r2 t' r' hx hy hok
            exact hrec
        · exact RRes.noConfusion hok
        · exact RRes.noConfusion hok
        · exact RRes.noConfusion hok
      · exact RRes.noConfusion hok
      · exact RRes.noConfusion hok
      · exact RRes.noConfusion hok
    · rw [if_neg hr] at hok
      simp only [RRes.ok.injEq, Prod.mk.injEq] at hok
      obtain ⟨e1, -⟩ := hok
      subst e1
      exact ⟨fun u v _ _ => rfl, le_refl _, by omega, fun _ => by omega⟩

theorem digitsOk_congr {b b' : Board} (ht : b'.tiles = b.tiles)
    (hw : b'.width = b.width) (hh : b'.height = b.height) (h : digitsOk b) :
    digitsOk b' := by
  unfold digitsOk at h ⊢
  rw [ht, hw, hh]
  exact h

theorem digitsOk_of_evolves {b b' : Board} (he : Evolves b b')
    (h : digitsOk b) : digitsOk b' :=
  digitsOk_congr he.2.2.2.1 he.1 he.2.1 h

theorem mineCount_of_evolves {b b' : Board} (he : Evolves b b') :
    mineCount b' = mineCount b := by
  unfold mineCount
  rw [he.2.2.2.1, he.1, he.2.1]

/-- What a successful `guarantee_zero` establishes: geometry, display and
the started flag are untouched; digits are freshly correct; the clicked
cell and its neighbors are mine-free; and the mine count is preserved
except in the documented infeasible-axis case, where it can only drop. -/
theorem guaranteeZero_spec (g : Nat → Nat) (fuel : Nat) (b : Board)
    (rpos x y : Nat) (b1 : Board) (r1 : Nat)
    (hok : guaranteeZero g fuel b rpos x y = .ok (b1, r1)) :
    x < b.width ∧ y < b.height ∧
    b1.width = b.width ∧ b1.height = b.height ∧ b1.mines = b.mines ∧
    b1.display = b.display ∧ b1.any_revealed = b.any_revealed ∧
    digitsOk b1 ∧
    (∀ u v, u ≤ x + 1 → x ≤ u + 1 → v ≤ y + 1 → y ≤ v + 1 →
      u < b.width → v < b.height → b1.tiles u v ≠ Tile.Mine) ∧
    mineCount b1 ≤ mineCount b ∧
    (¬((x = 0 ∧ b.width ≤ 2) ∨ (y = 0 ∧ b.height ≤ 2)) →
      mineCount b1 = mineCount b) := by
  unfold guaranteeZero at hok
  split_ifs at hok with hb
  rcases hrm : removeNear b.tiles b.width b.height x y with ⟨t1, removed⟩
  rw [hrm] at hok
  dsimp only at hok
  split_ifs at hok with hassert
  split at hok
  case _ t2 r2 heq =>
    simp only [RRes.ok.injEq, Prod.mk.injEq] at hok
    obtain ⟨e1, e2⟩ := hok
    subst e1; subst e2
    have hcount : gridMines b.width b.height t1 + removed =
        gridMines b.width b.height b.tiles := by
      have := foldRem_count b.width b.height (removeOrder b.width b.height x y)
        b.tiles 0 (removeOrder_bounds b.width b.height x y hb.1 hb.2)
      unfold removeNear at hrm
      rw [hrm] at this
      dsimp only at this
      omega
    have hri := reinsert_spec g fuel t1 b.width b.height x y removed rpos
      t2 r2 hb.1 hb.2 heq
    obtain ⟨hzone, hlo, hhi, heqn⟩ := hri
    refine ⟨hb.1, hb.2, rfl, rfl, rfl, rfl, rfl, ?_, ?_, ?_, ?_⟩
    · exact updateDigits_digitsOk t2 b.width b.height
    · intro u v h1 h2 h3 h4 hu hv
      show updateDigits t2 b.height b.width u v ≠ Tile.Mine
      rw [Ne, updateDigits_mine_iff, hzone u v h1 h2]
      have hmem : (u, v) ∈ removeOrder b.width b.height x y :=
        mem_removeOrder b.width b.height x y u v hb.1 hb.2 h1 h2 h3 h4 hu hv
      have := foldRem_clears (removeOrder b.width b.height x y) b.tiles 0
        (u, v) hmem
      unfold removeNear at hrm
      rw [hrm] at this
      exact this
    · show gridMines b.width b.height (updateDigits t2 b.height b.width) ≤
        mineCount b
      rw [gridMines_updateDigits]
      unfold mineCount
      omega
    · intro hnb
      show gridMines b.width b.height (updateDigits t2 b.height b.width) =
        mineCount b
      rw [gridMines_updateDigits]
      unfold mineCount
      have := heqn hnb
      omega
  case _ => exact RRes.noConfusion hok
  case _ => exact RRes.noConfusion hok
  case _ => exact RRes.noConfusion hok

/-- A successful `reveal_at` on a board with no reveal yet decomposes into a
successful `guarantee_zero` followed by an evolution of the clicked-revealed
board. -/
theorem revealAt_fresh (g : Nat → Nat) (fuel : Nat) (b : Board)
    (rpos x y : Nat) (t : Tile) (b' : Board) (r' : Nat)
    (hrev : b.any_revealed = false)
    (hok : revealAt g fuel b rpos x y = .ok (t, b', r')) :
    ∃ fuel' b1 r1, fuel = fuel' + 1 ∧ x < b.width ∧ y < b.height ∧
      guaranteeZero g (fuel' + 1) b rpos x y = .ok (b1, r1) ∧
      Evolves { b1 with any_revealed := true,
                        display := upd b1.display x y TileDisplay.Revealed }
        b' := by
  cases fuel with
  | zero => exact RRes.noConfusion hok
  | succ fuel' =>
    rw [revealAt] at hok
    by_cases hb : x ≥ b.width ∨ y ≥ b.height
    · rw [if_pos hb] at hok
      exact RRes.noConfusion hok
    · rw [if_neg hb, hrev] at hok
      simp only [Bool.not_false, if_true] at hok
      split at hok
      case _ =>
        rename_i b1 r1 heq
        refine ⟨fuel', b1, r1, rfl, by omega, by omega, heq, ?_⟩
        by_cases hz : b1.tiles x y = Tile.Safe .Zero
        · rw [if_pos hz] at hok
          split at hok
          case _ hv b3 r3 heq2 =>
            simp only [RRes.ok.injEq, Prod.mk.injEq] at hok
            obtain ⟨-, e2, -⟩ := hok
            exact e2 ▸ (evolves_main g fuel').2.1 _ r1 x y hv b3 r3 rfl heq2
          case _ => exact RRes.noConfusion hok
          case _ => exact RRes.noConfusion hok
          case _ => exact RRes.noConfusion hok
        · rw [if_neg hz] at hok
          simp only [RRes.ok.injEq, Prod.mk.injEq] at hok
          obtain ⟨-, e2, -⟩ := hok
          exact e2 ▸ evolves_refl rfl
      case _ => exact RRes.noConfusion hok
      case _ => exact RRes.noConfusion hok
      case _ => exact RRes.noConfusion hok

theorem gridMines_zero (w h : Nat) :
    gridMines w h (fun _ _ => Tile.Safe .Zero) = 0 := by
  unfold gridMines
  simp

theorem placeMines_count (g : Nat → Nat) : ∀ (fuel : Nat)
    (t : Nat → Nat → Tile) (w h m num rpos : Nat) (t' : Nat → Nat → Tile)
    (r' : Nat), gridMines w h t = num → num ≤ m →
    placeMines g fuel t w h m num rpos = .ok (t', r') →
    gridMines w h t' = m := by
  intro fuel
  induction fuel with
  | zero =>
    intro t w h m num rpos t' r' hcnt hle hok
    exact RRes.noConfusion hok
  | succ fuel ih =>
    intro t w h m num rpos t' r' hcnt hle hok
    rw [placeMines] at hok
    by_cases hlt : num < m
    · rw [if_pos hlt] at hok
      split at hok
      · rename_i x1 r1 heq1
        split at hok
        · rename_i y1 r2 heq2
          have hx1 := genRange_ok g rpos 0 w x1 r1 heq1
          have hy1 := genRange_ok g r1 0 h y1 r2 heq2
          split_ifs at hok with hm
          · exact ih t w h m num r2 t' r' hcnt hle hok
          · have hupd := gridMines_upd_mine w h t x1 y1 hx1.2 hy1.2 hm
            exact ih (upd t x1 y1 Tile.Mine) w h m (num + 1) r2 t' r'
              (by omega) (by omega) hok
        · exact RRes.noConfusion hok
        · exact RRes.noConfusion hok
        · exact RRes.noConfusion hok
      · exact RRes.noConfusion hok
      · exact RRes.noConfusion hok
      · exact RRes.noConfusion hok
    · rw [if_neg hlt] at hok
      simp only [RRes.ok.injEq, Prod.mk.injEq] at hok
      obtain ⟨e1, -⟩ := hok
      rw [← e1]
      omega

theorem boardNew_case (g : Nat → Nat) (fuel w h m rpos : Nat) (b : Board)
    (r : Nat) (hok : Board.new g fuel w h m rpos = .ok (b, r)) :
    ∃ t pr, placeMines g fuel (fun _ _ => Tile.Safe .Zero) w h m 0 rpos =
        .ok (t, pr) ∧
      b = { tiles := updateDigits t h w,
            display := fun _ _ => TileDisplay.Hidden,
            width := w, height := h, mines := m, any_revealed := false } := by
  unfold Board.new at hok
  split at hok
  · rename_i t pr heq
    simp only [RRes.ok.injEq, Prod.mk.injEq] at hok
    obtain ⟨e1, -⟩ := hok
    exact ⟨t, pr, heq, e1.symm⟩
  · exact RRes.noConfusion hok
  · exact RRes.noConfusion hok
  · exact RRes.noConfusion hok

/-- `reveal_at` preserves the digit invariant (rebuilding it outright on the
first reveal). -/
theorem revealAt_digitsOk (g : Nat → Nat) (fuel : Nat) (b : Board)
    (rpos x y : Nat) (t : Tile) (b' : Board) (r' : Nat)
    (hok : revealAt g fuel b rpos x y = .ok (t, b', r')) (hd : digitsOk b) :
    digitsOk b' := by
  cases hrevb : b.any_revealed with
  | true =>
    exact digitsOk_of_evolves
      ((evolves_main g fuel).1 b rpos x y t b' r' hrevb hok) hd
  | false =>
    obtain ⟨fuel', b1, r1, -, hx, hy, hgz, hev⟩ :=
      revealAt_fresh g fuel b rpos x y t b' r' hrevb hok
    have hd1 : digitsOk b1 :=
      (guaranteeZero_spec g (fuel' + 1) b rpos x y b1 r1 hgz).2.2.2.2.2.2.2.1
    exact digitsOk_of_evolves hev (digitsOk_congr rfl rfl rfl hd1)

theorem chordFold_digitsOk (g : Nat → Nat) : ∀ (fuel : Nat)
    (l : List (Nat × Nat)) (b : Board) (rpos : Nat) (hit : Bool) (b' : Board)
    (r' : Nat), chordFold g fuel l b rpos = .ok (hit, b', r') → digitsOk b →
    digitsOk b' := by
  intro fuel
  induction fuel with
  | zero =>
    intro l b rpos hit b' r' hok hd
    exact RRes.noConfusion hok
  | succ fuel ih =>
    intro l b rpos hit b' r' hok hd
    cases l with
    | nil =>
      simp only [chordFold, RRes.ok.injEq, Prod.mk.injEq] at hok
      obtain ⟨-, e2, -⟩ := hok
      exact e2 ▸ hd
    | cons p rest =>
      simp only [chordFold] at hok
      split at hok
      · split at hok
        · rename_i hh tv bi ri heq
          have hdi := revealAt_digitsOk g fuel b rpos p.1 p.2 tv bi ri heq hd
          split at hok
          · simp only [RRes.ok.injEq, Prod.mk.injEq] at hok
            obtain ⟨-, e2, -⟩ := hok
            exact e2 ▸ hdi
          · exact ih rest bi ri hit b' r' hok hdi
        · exact ih rest b rpos hit b' r' hok hd
        · exact RRes.noConfusion hok
        · exact RRes.noConfusion hok
      · exact ih rest b rpos hit b' r' hok hd

theorem revealAdjacent_digitsOk (g : Nat → Nat) (fuel : Nat) (b : Board)
    (rpos x y : Nat) (hit : Bool) (b' : Board) (r' : Nat)
    (hok : revealAdjacent g fuel b rpos x y = .ok (hit, b', r'))
    (hd : digitsOk b) : digitsOk b' := by
  cases fuel with
  | zero => exact RRes.noConfusion hok
  | succ fuel =>
    by_cases hb : x ≥ b.width ∨ y ≥ b.height
    · rw [revealAdjacent_oob g fuel b rpos x y hb] at hok
      exact RRes.noConfusion hok
    · by_cases hdisp : b.display x y = TileDisplay.Revealed
      · rw [revealAdjacent_eq g fuel b rpos x y (by omega) (by omega) hdisp]
          at hok
        exact chordFold_digitsOk g fuel _ b rpos hit b' r' hok hd
      · rw [revealAdjacent_not_revealed g fuel b rpos x y (by omega) (by omega)
          hdisp] at hok
        exact RRes.noConfusion hok

/-- Claim C1: on a board on which no reveal has yet occurred, a returning
`reveal_at` leaves no `Mine` on the clicked cell or any of its up-to-8
neighbors (the relocation clears the 3×3 block and re-inserts only at
distance two or more on both axes). -/
theorem C1_first_click_safe (g : Nat → Nat) (fuel : Nat) (b : Board)
    (rpos x y : Nat) (t : Tile) (b' : Board) (r' : Nat)
    (hrev : b.any_revealed = false)
    (hok : revealAt g fuel b rpos x y = .ok (t, b', r')) :
    ∀ u v, u < b'.width → v < b'.height → u ≤ x + 1 → x ≤ u + 1 →
      v ≤ y + 1 → y ≤ v + 1 → b'.tiles u v ≠ Tile.Mine := by
  obtain ⟨fuel', b1, r1, -, hx, hy, hgz, hev⟩ :=
    revealAt_fresh g fuel b rpos x y t b' r' hrev hok
  obtain ⟨-, -, hw1, hh1, -, -, -, -, hsafe, -, -⟩ :=
    guaranteeZero_spec g (fuel' + 1) b rpos x y b1 r1 hgz
  intro u v hu hv h1 h2 h3 h4
  have htl : b'.tiles = b1.tiles := hev.2.2.2.1
  have hww : b'.width = b.width := hev.1.trans hw1
  have hhh : b'.height = b.height := hev.2.1.trans hh1
  rw [htl]
  exact hsafe u v h1 h2 h3 h4 (by omega) (by omega)

set_option maxHeartbeats 4000000 in
/-- Witness for C1_first_click_safe: the mine adjacent to the first click on
`fcBoard` is gone from the whole 3×3 block around the click. -/
theorem C1_first_click_safe_witness :
    fcAfter.tiles 1 1 ≠ Tile.Mine :=
  C1_first_click_safe gId 200 fcBoard 0 0 0 _ fcAfter _ rfl rfl 1 1
    (by decide) (by decide) (by decide) (by decide) (by decide) (by decide)

/-- Claim C2: after construction and after any reveal (including the
first-reveal relocation), every `Safe` cell's digit equals the exact number
of `Mine` cells among its up-to-8 in-bounds neighbors, and the invariant is
preserved by `reveal_at`, `reveal_adjacent`, `toggle_display_at` and
`reveal_all`. -/
theorem C2_digit_invariant :
    (∀ (g : Nat → Nat) (fuel w h m rpos : Nat) (b : Board) (r : Nat),
      Board.new g fuel w h m rpos = .ok (b, r) → digitsOk b) ∧
    (∀ (g : Nat → Nat) (fuel : Nat) (b : Board) (rpos x y : Nat) (t : Tile)
      (b' : Board) (r' : Nat), revealAt g fuel b rpos x y = .ok (t, b', r') →
      digitsOk b → digitsOk b') ∧
    (∀ (g : Nat → Nat) (fuel : Nat) (b : Board) (rpos x y : Nat) (hit : Bool)
      (b' : Board) (r' : Nat),
      revealAdjacent g fuel b rpos x y = .ok (hit, b', r') →
      digitsOk b → digitsOk b') ∧
    (∀ (b : Board) (x y : Nat) (d : TileDisplay) (b' : Board),
      toggleDisplayAt b x y = .ok (d, b') → digitsOk b → digitsOk b') ∧
    (∀ b : Board, digitsOk b → digitsOk (revealAll b)) := by
  refine ⟨?_, ?_, ?_, ?_, ?_⟩
  · intro g fuel w h m rpos b r hok
    obtain ⟨t, pr, -, hbe⟩ := boardNew_case g fuel w h m rpos b r hok
    subst hbe
    exact updateDigits_digitsOk t w h
  · intro g fuel b rpos x y t b' r' hok hd
    exact revealAt_digitsOk g fuel b rpos x y t b' r' hok hd
  · intro g fuel b rpos x y hit b' r' hok hd
    exact revealAdjacent_digitsOk g fuel b rpos x y hit b' r' hok hd
  · intro b x y d b' hok hd
    unfold toggleDisplayAt at hok
    split_ifs at hok with hb
    simp only [RRes.ok.injEq, Prod.mk.injEq] at hok
    obtain ⟨-, e2⟩ := hok
    exact e2 ▸ digitsOk_congr rfl rfl rfl hd
  · intro b hd
    exact digitsOk_congr rfl rfl rfl hd

/-- Witness for C2_digit_invariant: the board built by the sample
`Board.new` run satisfies the digit invariant. -/
theorem C2_digit_invariant_witness : digitsOk newBoard :=
  C2_digit_invariant.1 gId 20 3 3 2 0 newBoard 4 rfl

/-- Claim C3: `Board.new` places exactly `mines` mines, and a returning
first reveal preserves the count — it can only be lower when a relocation
axis has no room (`x = 0` with `width ≤ 2`, or `y = 0` with `height ≤ 2`,
the documented `break`), and is never higher. -/
theorem C3_mine_conservation :
    (∀ (g : Nat → Nat) (fuel w h m rpos : Nat) (b : Board) (r : Nat),
      Board.new g fuel w h m rpos = .ok (b, r) → mineCount b = m) ∧
    (∀ (g : Nat → Nat) (fuel : Nat) (b : Board) (rpos x y : Nat) (t : Tile)
      (b' : Board) (r' : Nat), b.any_revealed = false →
      mineCount b = b.mines →
      revealAt g fuel b rpos x y = .ok (t, b', r') →
      mineCount b' ≤ b.mines ∧
      (¬((x = 0 ∧ b.width ≤ 2) ∨ (y = 0 ∧ b.height ≤ 2)) →
        mineCount b' = b.mines)) := by
  constructor
  · intro g fuel w h m rpos b r hok
    obtain ⟨t, pr, heq, hbe⟩ := boardNew_case g fuel w h m rpos b r hok
    subst hbe
    show gridMines w h (updateDigits t h w) = m
    rw [gridMines_updateDigits]
    exact placeMines_count g fuel _ w h m 0 rpos t pr
      (gridMines_zero w h) (Nat.zero_le m) heq
  · intro g fuel b rpos x y t b' r' hrev hmines hok
    obtain ⟨fuel', b1, r1, -, hx, hy, hgz, hev⟩ :=
      revealAt_fresh g fuel b rpos x y t b' r' hrev hok
    obtain ⟨-, -, -, -, -, -, -, -, -, hle, heqn⟩ :=
      guaranteeZero_spec g (fuel' + 1) b rpos x y b1 r1 hgz
    have hmc0 := mineCount_of_evolves hev
    have hmc : mineCount b' = mineCount b1 := hmc0
    constructor
    · omega
    · intro hnb
      have := heqn hnb
      omega

/-- Witness for C3_mine_conservation: the sample `Board.new` run places
exactly its two requested mines. -/
theorem C3_mine_conservation_witness : mineCount newBoard = 2 :=
  C3_mine_conservation.1 gId 20 3 3 2 0 newBoard 4 rfl

theorem chordFold_no_err (g : Nat → Nat) : ∀ (fuel : Nat)
    (l : List (Nat × Nat)) (b : Board) (rpos : Nat) (e : String),
    chordFold g fuel l b rpos ≠ .err e := by
  intro fuel
  induction fuel with
  | zero =>
    intro l b rpos e h
    rw [chordFold_zero] at h
    exact RRes.noConfusion h
  | succ fuel ih =>
    intro l b rpos e h
    cases l with
    | nil => simp [chordFold] at h
    | cons p rest =>
      simp only [chordFold] at h
      split at h
      · split at h
        · rename_i hh tv bi ri heq
          split at h
          · exact RRes.noConfusion h
          · exact ih rest bi ri e h
        · exact ih rest b rpos e h
        · exact RRes.noConfusion h
        · exact RRes.noConfusion h
      · exact ih rest b rpos e h

theorem revealAdjacent_no_err (g : Nat → Nat) (fuel : Nat) (b : Board)
    (rpos x y : Nat) (e : String) (hx : x < b.width) (hy : y < b.height)
    (hd : b.display x y = TileDisplay.Revealed) :
    revealAdjacent g fuel b rpos x y ≠ .err e := by
  cases fuel with
  | zero =>
    intro h
    rw [revealAdjacent_zero] at h
    exact RRes.noConfusion h
  | succ fuel =>
    rw [revealAdjacent_eq g fuel b rpos x y hx hy hd]
    exact chordFold_no_err g fuel _ b rpos e

/-- Once the game has started, the reveal family never panics (`reveal_at`
anywhere; `reveal_adjacent` and the neighbor loop on in-bounds cells). -/
theorem no_panic_main (g : Nat → Nat) : ∀ fuel : Nat,
    (∀ b rpos x y, b.any_revealed = true →
      revealAt g fuel b rpos x y ≠ .panicked) ∧
    (∀ b rpos x y, b.any_revealed = true → x < b.width → y < b.height →
      revealAdjacent g fuel b rpos x y ≠ .panicked) ∧
    (∀ l b rpos, b.any_revealed = true →
      (∀ p ∈ l, p.1 < b.width ∧ p.2 < b.height) →
      chordFold g fuel l b rpos ≠ .panicked) := by
  intro fuel
  induction fuel with
  | zero =>
    refine ⟨fun b rpos x y hrev h => ?_, fun b rpos x y hrev hx hy h => ?_,
            fun l b rpos hrev hl h => ?_⟩
    · rw [revealAt_zero] at h
      exact RRes.noConfusion h
    · rw [revealAdjacent_zero] at h
      exact RRes.noConfusion h
    · rw [chordFold_zero] at h
      exact RRes.noConfusion h
  | succ fuel ih =>
    obtain ⟨ihA, ihB, ihC⟩ := ih
    refine ⟨fun b rpos x y hrev h => ?_, fun b rpos x y hrev hx hy h => ?_,
            fun l b rpos hrev hl h => ?_⟩
    · by_cases hb : x ≥ b.width ∨ y ≥ b.height
      · rw [revealAt_oob g fuel b rpos x y hb] at h
        exact RRes.noConfusion h
      · rw [revealAt_started g fuel b rpos x y hrev (by omega) (by omega)] at h
        split_ifs at h with hz
        · split at h
          · exact RRes.noConfusion h
          · rename_i e heq
            exact revealAdjacent_no_err g fuel
              { b with any_revealed := true,
                       display := upd b.display x y TileDisplay.Revealed }
              rpos x y e (show x < b.width by omega)
              (show y < b.height by omega) (by simp [upd]) heq
          · rename_i heq
            exact ihB
              { b with any_revealed := true,
                       display := upd b.display x y TileDisplay.Revealed }
              rpos x y rfl (show x < b.width by omega)
              (show y < b.height by omega) heq
          · exact RRes.noConfusion h
    · by_cases hd : b.display x y = TileDisplay.Revealed
      · rw [revealAdjacent_eq g fuel b rpos x y hx hy hd] at h
        exact ihC _ b rpos hrev
          (fun p hp => ⟨(adjOrder_spec b.width b.height x y hx hy p hp).1,
            (adjOrder_spec b.width b.height x y hx hy p hp).2.1⟩) h
      · rw [revealAdjacent_not_revealed g fuel b rpos x y hx hy hd] at h
        exact RRes.noConfusion h
    · cases l with
      | nil => simp [chordFold] at h
      | cons p rest =>
        simp only [chordFold] at h
        split at h
        · split at h
          · rename_i hh tv bi ri heq
            have hev := (evolves_main g fuel).1 b rpos p.1 p.2 tv bi ri hrev heq
            split at h
            · exact RRes.noConfusion h
            · refine ihC rest bi ri hev.2.2.2.2.1 (fun q hq => ?_) h
              have := hl q (List.mem_cons_of_mem p hq)
              rw [hev.1, hev.2.1]
              exact this
          · exact ihC rest b rpos hrev
              (fun q hq => hl q (List.mem_cons_of_mem p hq)) h
          · rename_i heq
            exact ihA b rpos p.1 p.2 hrev heq
          · exact RRes.noConfusion h
        · exact ihC rest b rpos hrev
            (fun q hq => hl q (List.mem_cons_of_mem p hq)) h

theorem placeMines_no_panic (g : Nat → Nat) : ∀ (fuel : Nat)
    (t : Nat → Nat → Tile) (w h m num rpos : Nat), 0 < w → 0 < h →
    placeMines g fuel t w h m num rpos ≠ .panicked := by
  intro fuel
  induction fuel with
  | zero =>
    intro t w h m num rpos hw hh hcon
    exact RRes.noConfusion hcon
  | succ fuel ih =>
    intro t w h m num rpos hw hh hcon
    rw [placeMines] at hcon
    split_ifs at hcon with hlt
    · rw [show genRange g rpos 0 w =
          .ok (0 + g rpos % (w - 0), rpos + 1) from by
            unfold genRange; rw [if_pos (by omega)]] at hcon
      dsimp only at hcon
      rw [show genRange g (rpos + 1) 0 h =
          .ok (0 + g (rpos + 1) % (h - 0), rpos + 1 + 1) from by
            unfold genRange; rw [if_pos (by omega)]] at hcon
      dsimp only at hcon
      split_ifs at hcon with hm
      · exact ih t w h m num (rpos + 1 + 1) hw hh hcon
      · exact ih _ w h m (num + 1) (rpos + 1 + 1) hw hh hcon

/-- Claim C4 (corrected): `toggle_display_at`, `get_tile_at` and
`get_display_at` return a value or a typed error on every input;
`Board::new` never panics for positive dimensions; and once a reveal has
occurred, `reveal_at` (anywhere) and `reveal_adjacent` (in bounds) never
panic.  But the core is not panic-free: `reveal_adjacent` panics on
out-of-bounds coordinates (see the counterexample), and the first-reveal
relocation can panic in `gen_range` on an empty sub-range. -/
theorem C4_no_panic :
    (∀ (b : Board) (x y : Nat), (∃ p, toggleDisplayAt b x y = .ok p) ∨
      (∃ e, toggleDisplayAt b x y = .err e)) ∧
    (∀ (b : Board) (x y : Nat), (∃ p, getTileAt b x y = .ok p) ∨
      (∃ e, getTileAt b x y = .err e)) ∧
    (∀ (b : Board) (x y : Nat), (∃ p, getDisplayAt b x y = .ok p) ∨
      (∃ e, getDisplayAt b x y = .err e)) ∧
    (∀ (g : Nat → Nat) (fuel w h m rpos : Nat), 0 < w → 0 < h →
      Board.new g fuel w h m rpos ≠ .panicked) ∧
    (∀ (g : Nat → Nat) (fuel : Nat) (b : Board) (rpos x y : Nat),
      b.any_revealed = true → revealAt g fuel b rpos x y ≠ .panicked) ∧
    (∀ (g : Nat → Nat) (fuel : Nat) (b : Board) (rpos x y : Nat),
      b.any_revealed = true → x < b.width → y < b.height →
      revealAdjacent g fuel b rpos x y ≠ .panicked) := by
  refine ⟨?_, ?_, ?_, ?_, ?_, ?_⟩
  · intro b x y
    unfold toggleDisplayAt
    split_ifs with hb
    · exact Or.inr ⟨_, rfl⟩
    · exact Or.inl ⟨_, rfl⟩
  · intro b x y
    unfold getTileAt
    split_ifs with hb1 hb2
    · exact Or.inr ⟨_, rfl⟩
    · exact Or.inr ⟨_, rfl⟩
    · exact Or.inl ⟨_, rfl⟩
  · intro b x y
    unfold getDisplayAt
    split_ifs with hb1 hb2
    · exact Or.inr ⟨_, rfl⟩
    · exact Or.inr ⟨_, rfl⟩
    · exact Or.inl ⟨_, rfl⟩
  · intro g fuel w h m rpos hw hh hcon
    unfold Board.new at hcon
    split at hcon
    · exact RRes.noConfusion hcon
    · exact RRes.noConfusion hcon
    · rename_i heq
      exact placeMines_no_panic g fuel _ w h m 0 rpos hw hh heq
    · exact RRes.noConfusion hcon
  · intro g fuel b rpos x y hrev
    exact (no_panic_main g fuel).1 b rpos x y hrev
  · intro g fuel b rpos x y hrev hx hy
    exact (no_panic_main g fuel).2.1 b rpos x y hrev hx hy

/-- Witness for C4_no_panic on the 1×1 board and a small `Board.new` run. -/
theorem C4_no_panic_witness :
    Board.new gId 20 3 3 2 0 ≠ .panicked ∧
    revealAt gId 5 tinyBoard 0 0 0 ≠ .panicked :=
  ⟨C4_no_panic.2.2.2.1 gId 20 3 3 2 0 (by decide) (by decide),
   C4_no_panic.2.2.2.2.1 gId 5 tinyBoard 0 0 0 rfl⟩

/-! ### Termination of the cascade -/

theorem hiddenCount_upd (b : Board) (x y : Nat) (hx : x < b.width)
    (hy : y < b.height) (hh : b.display x y = TileDisplay.Hidden) :
    hiddenCount { b with any_revealed := true,
                         display := upd b.display x y TileDisplay.Revealed }
      + 1 = hiddenCount b := by
  unfold hiddenCount
  dsimp only
  have hset : ((Finset.range b.width ×ˢ Finset.range b.height).filter
        fun p => upd b.display x y TileDisplay.Revealed p.1 p.2 =
          TileDisplay.Hidden)
      = ((Finset.range b.width ×ˢ Finset.range b.height).filter
        fun p => b.display p.1 p.2 = TileDisplay.Hidden).erase (x, y) := by
    ext p
    simp only [Finset.mem_erase, Finset.mem_filter, Finset.mem_product,
      Finset.mem_range, upd]
    constructor
    · rintro ⟨⟨hb1, hb2⟩, h3⟩
      by_cases hp : p.1 = x ∧ p.2 = y
      · rw [if_pos hp] at h3
        exact absurd h3 (by simp)
      · rw [if_neg hp] at h3
        refine ⟨fun e => hp ?_, ⟨hb1, hb2⟩, h3⟩
        rw [e]
        exact ⟨rfl, rfl⟩
    · rintro ⟨hne, ⟨hb1, hb2⟩, h3⟩
      refine ⟨⟨hb1, hb2⟩, ?_⟩
      rw [if_neg fun hp => hne (Prod.ext hp.1 hp.2)]
      exact h3
  rw [hset, Finset.card_erase_add_one]
  rw [Finset.mem_filter]
  exact ⟨Finset.mem_product.mpr
    ⟨Finset.mem_range.mpr hx, Finset.mem_range.mpr hy⟩, hh⟩

theorem hiddenCount_upd_le (b : Board) (x y : Nat) :
    hiddenCount { b with any_revealed := true,
                         display := upd b.display x y TileDisplay.Revealed }
      ≤ hiddenCount b := by
  unfold hiddenCount
  dsimp only
  apply Finset.card_le_card
  intro p hp
  simp only [Finset.mem_filter, upd] at hp ⊢
  refine ⟨hp.1, ?_⟩
  have := hp.2
  split_ifs at this with hpp
  exact this

theorem hiddenCount_of_evolves {b b' : Board} (he : Evolves b b') :
    hiddenCount b' ≤ hiddenCount b := by
  unfold hiddenCount
  rw [he.1, he.2.1]
  apply Finset.card_le_card
  intro p hp
  simp only [Finset.mem_filter] at hp ⊢
  refine ⟨hp.1, ?_⟩
  rcases he.2.2.2.2.2 p.1 p.2 with e | e
  · rw [← e]
    exact hp.2
  · rw [e] at hp
    exact absurd hp.2 (by simp)

theorem adjOrder_length (w h x y : Nat) : (adjOrder w h x y).length ≤ 8 := by
  have H1 : ∀ (c : Prop) (inst : Decidable c) (a : Nat × Nat),
      (if c then [a] else []).length ≤ 1 := by
    intro c inst a
    split_ifs <;> simp
  unfold adjOrder
  simp only [List.length_append]
  have hA : (if 0 < x then
      [(x - 1, y)] ++ (if y < h - 1 then [(x - 1, y + 1)] else []) ++
        (if 0 < y then [(x - 1, y - 1)] else [])
     else []).length ≤ 3 := by
    split_ifs <;> simp
  have hB : (if x < w - 1 then
      [(x + 1, y)] ++ (if y < h - 1 then [(x + 1, y + 1)] else []) ++
        (if 0 < y then [(x + 1, y - 1)] else [])
     else []).length ≤ 3 := by
    split_ifs <;> simp
  have hC := H1 (y < h - 1) inferInstance (x, y + 1)
  have hD := H1 (0 < y) inferInstance (x, y - 1)
  omega

theorem hiddenCount_pos (b : Board) (x y : Nat) (hx : x < b.width)
    (hy : y < b.height) (hh : b.display x y = TileDisplay.Hidden) :
    0 < hiddenCount b := by
  unfold hiddenCount
  rw [Finset.card_pos]
  exact ⟨(x, y), Finset.mem_filter.mpr
    ⟨Finset.mem_product.mpr ⟨Finset.mem_range.mpr hx, Finset.mem_range.mpr hy⟩,
      hh⟩⟩

/-- A successful `reveal_at` on a started board decomposes into marking the
cell revealed and an evolution of the result. -/
theorem revealAt_started_cases (g : Nat → Nat) (fuel : Nat) (b : Board)
    (rpos x y : Nat) (t : Tile) (b' : Board) (r' : Nat)
    (hrev : b.any_revealed = true)
    (hok : revealAt g fuel b rpos x y = .ok (t, b', r')) :
    x < b.width ∧ y < b.height ∧
    Evolves { b with any_revealed := true, display := upd b.display x y TileDisplay.Revealed } b' := by
  cases fuel with
  | zero => exact RRes.noConfusion hok
  | succ fuel =>
    by_cases hb : x ≥ b.width ∨ y ≥ b.height
    · rw [revealAt_oob g fuel b rpos x y hb] at hok
      exact RRes.noConfusion hok
    · rw [revealAt_started g fuel b rpos x y hrev (by omega) (by omega)] at hok
      refine ⟨by omega, by omega, ?_⟩
      split_ifs at hok with hz
      · split at hok
        · rename_i hv b3 r3 heq
          simp only [RRes.ok.injEq, Prod.mk.injEq] at hok
          obtain ⟨-, e2, -⟩ := hok
          exact e2 ▸ (evolves_main g fuel).2.1 _ rpos x y hv b3 r3 rfl heq
        · exact RRes.noConfusion hok
        · exact RRes.noConfusion hok
        · exact RRes.noConfusion hok
      · simp only [RRes.ok.injEq, Prod.mk.injEq] at hok
        obtain ⟨-, e2, -⟩ := hok
        exact e2 ▸ evolves_refl rfl

/-- A successful `reveal_at` leaves the clicked cell `Revealed`. -/
theorem revealAt_reveals (g : Nat → Nat) (fuel : Nat) (b : Board)
    (rpos x y : Nat) (t : Tile) (b' : Board) (r' : Nat)
    (hok : revealAt g fuel b rpos x y = .ok (t, b', r')) :
    b'.display x y = TileDisplay.Revealed := by
  have key : ∀ (c : Board),
      Evolves { c with any_revealed := true, display := upd c.display x y TileDisplay.Revealed } b' →
      b'.display x y = TileDisplay.Revealed := by
    intro c hev
    rcases hev.2.2.2.2.2 x y with e | e
    · rw [e]
      simp [upd]
    · exact e
  cases hrev : b.any_revealed with
  | true => exact key b (revealAt_started_cases g fuel b rpos x y t b' r'
      hrev hok).2.2
  | false =>
    obtain ⟨fuel', b1, r1, -, -, -, -, hev⟩ :=
      revealAt_fresh g fuel b rpos x y t b' r' hrev hok
    exact key b1 hev

/-- Revealing a hidden in-bounds cell strictly decreases the hidden count. -/
theorem hiddenCount_lt (b b' : Board) (x y : Nat) (hx : x < b.width)
    (hy : y < b.height) (hh : b.display x y = TileDisplay.Hidden)
    (hev : Evolves b b') (hrev' : b'.display x y = TileDisplay.Revealed) :
    hiddenCount b' + 1 ≤ hiddenCount b := by
  unfold hiddenCount
  rw [hev.1, hev.2.1]
  have hsub : ((Finset.range b.width ×ˢ Finset.range b.height).filter
        fun p => b'.display p.1 p.2 = TileDisplay.Hidden)
      ⊆ ((Finset.range b.width ×ˢ Finset.range b.height).filter
        fun p => b.display p.1 p.2 = TileDisplay.Hidden).erase (x, y) := by
    intro p hp
    simp only [Finset.mem_erase, Finset.mem_filter] at hp ⊢
    refine ⟨?_, hp.1, ?_⟩
    · intro e
      rw [e] at hp
      rw [hrev'] at hp
      exact absurd hp.2 (by simp)
    · rcases hev.2.2.2.2.2 p.1 p.2 with e | e
      · rw [← e]
        exact hp.2
      · rw [e] at hp
        exact absurd hp.2 (by simp)
  have hcard := Finset.card_le_card hsub
  have hmem : (x, y) ∈ ((Finset.range b.width ×ˢ Finset.range b.height).filter
      fun p => b.display p.1 p.2 = TileDisplay.Hidden) :=
    Finset.mem_filter.mpr ⟨Finset.mem_product.mpr
      ⟨Finset.mem_range.mpr hx, Finset.mem_range.mpr hy⟩, hh⟩
  have := Finset.card_erase_add_one hmem
  omega

/-- Fuel linear in the number of hidden cells suffices: the cascade
terminates because each recursive reveal flips one cell from `Hidden` to
`Revealed` and the grid is finite. -/
theorem fuel_main (g : Nat → Nat) : ∀ fuel : Nat,
    (∀ b rpos x y, b.any_revealed = true →
      11 * hiddenCount b + 11 ≤ fuel → revealAt g fuel b rpos x y ≠ .noFuel) ∧
    (∀ b rpos x y, b.any_revealed = true → x < b.width → y < b.height →
      b.display x y = TileDisplay.Hidden → 11 * hiddenCount b ≤ fuel →
      revealAt g fuel b rpos x y ≠ .noFuel) ∧
    (∀ b rpos x y, b.any_revealed = true →
      11 * hiddenCount b + 10 ≤ fuel →
      revealAdjacent g fuel b rpos x y ≠ .noFuel) ∧
    (∀ l b rpos, b.any_revealed = true →
      (∀ p ∈ l, p.1 < b.width ∧ p.2 < b.height) →
      11 * hiddenCount b + l.length + 1 ≤ fuel →
      chordFold g fuel l b rpos ≠ .noFuel) := by
  intro fuel
  induction fuel with
  | zero =>
    refine ⟨fun b rpos x y hrev hf => by omega,
            fun b rpos x y hrev hx hy hh hf => ?_,
            fun b rpos x y hrev hf => by omega,
            fun l b rpos hrev hl hf => by omega⟩
    have := hiddenCount_pos b x y hx hy hh
    omega
  | succ fuel ih =>
    obtain ⟨ihA, ihAh, ihB, ihC⟩ := ih
    have hcore : ∀ b rpos x y, b.any_revealed = true →
        ¬(x ≥ b.width ∨ y ≥ b.height) →
        11 * hiddenCount { b with any_revealed := true, display := upd b.display x y TileDisplay.Revealed } + 10 ≤ fuel →
        revealAt g (fuel + 1) b rpos x y ≠ .noFuel := by
      intro b rpos x y hrev hb hf h
      rw [revealAt_started g fuel b rpos x y hrev (by omega) (by omega)] at h
      split_ifs at h with hz
      · split at h
        · exact RRes.noConfusion h
        · exact RRes.noConfusion h
        · exact RRes.noConfusion h
        · rename_i heq
          exact ihB _ rpos x y rfl hf heq
    refine ⟨fun b rpos x y hrev hf => ?_, fun b rpos x y hrev hx hy hh hf => ?_,
            fun b rpos x y hrev hf => ?_, fun l b rpos hrev hl hf => ?_⟩
    · intro h
      by_cases hb : x ≥ b.width ∨ y ≥ b.height
      · rw [revealAt_oob g fuel b rpos x y hb] at h
        exact RRes.noConfusion h
      · refine hcore b rpos x y hrev hb ?_ h
        have := hiddenCount_upd_le b x y
        omega
    · intro h
      have hb : ¬(x ≥ b.width ∨ y ≥ b.height) := by omega
      refine hcore b rpos x y hrev hb ?_ h
      have := hiddenCount_upd b x y hx hy hh
      omega
    · intro h
      by_cases hb : x ≥ b.width ∨ y ≥ b.height
      · rw [revealAdjacent_oob g fuel b rpos x y hb] at h
        exact RRes.noConfusion h
      · by_cases hd : b.display x y = TileDisplay.Revealed
        · rw [revealAdjacent_eq g fuel b rpos x y (by omega) (by omega) hd] at h
          refine ihC _ b rpos hrev (fun p hp => ?_) ?_ h
          · exact ⟨(adjOrder_spec b.width b.height x y (by omega) (by omega)
                p hp).1,
              (adjOrder_spec b.width b.height x y (by omega) (by omega)
                p hp).2.1⟩
          · have := adjOrder_length b.width b.height x y
            omega
        · rw [revealAdjacent_not_revealed g fuel b rpos x y (by omega)
            (by omega) hd] at h
          exact RRes.noConfusion h
    · intro h
      cases l with
      | nil => simp [chordFold] at h
      | cons p rest =>
        simp only [chordFold] at h
        split at h
        · rename_i hh
          split at h
          · rename_i tv bi ri heq
            have hev := (evolves_main g fuel).1 b rpos p.1 p.2 tv bi ri hrev heq
            split at h
            · exact RRes.noConfusion h
            · refine ihC rest bi ri hev.2.2.2.2.1 (fun q hq => ?_) ?_ h
              · rw [hev.1, hev.2.1]
                exact hl q (List.mem_cons_of_mem p hq)
              · -- the revealed cell makes bi at least one hidden cell lighter
                have hb2 : hiddenCount bi + 1 ≤ hiddenCount b :=
                  hiddenCount_lt b bi p.1 p.2
                    (hl p (List.mem_cons_self p rest)).1
                    (hl p (List.mem_cons_self p rest)).2 hh hev
                    (revealAt_reveals g fuel b rpos p.1 p.2 tv bi ri heq)
                have hlen : rest.length + 1 = (p :: rest).length := rfl
                omega
          · exact ihC rest b rpos hrev
              (fun q hq => hl q (List.mem_cons_of_mem p hq)) (by
                have hlen : rest.length + 1 = (p :: rest).length := rfl
                omega) h
          · exact RRes.noConfusion h
          · rename_i heq
            exact ihAh b rpos p.1 p.2 hrev (hl p (List.mem_cons_self p rest)).1
              (hl p (List.mem_cons_self p rest)).2 hh (by
                have hlen : rest.length + 1 = (p :: rest).length := rfl
                omega) heq
        · exact ihC rest b rpos hrev
            (fun q hq => hl q (List.mem_cons_of_mem p hq)) (by
              have hlen : rest.length + 1 = (p :: rest).length := rfl
              omega) h

/-- Claim C8: the mutual recursion of `reveal_at` and `reveal_adjacent`
terminates on every started board and cell: fuel linear in the number of
`Hidden` cells suffices for a definite answer, because each recursive
reveal permanently flips one cell from `Hidden` to `Revealed` on the
finite grid (the hidden count never increases). -/
theorem C8_termination (g : Nat → Nat) (fuel : Nat) (b : Board)
    (rpos x y : Nat) (hrev : b.any_revealed = true)
    (hfuel : 11 * hiddenCount b + 11 ≤ fuel) :
    revealAt g fuel b rpos x y ≠ .noFuel ∧
    revealAdjacent g fuel b rpos x y ≠ .noFuel ∧
    (∀ t b' r', revealAt g fuel b rpos x y = .ok (t, b', r') →
      hiddenCount b' ≤ hiddenCount b) := by
  refine ⟨(fuel_main g fuel).1 b rpos x y hrev hfuel,
          (fuel_main g fuel).2.2.1 b rpos x y hrev (by omega),
          fun t b' r' hok => ?_⟩
  exact hiddenCount_of_evolves
    ((evolves_main g fuel).1 b rpos x y t b' r' hrev hok)

/-- Witness for C8_termination on the 1×1 board with its exact fuel bound. -/
theorem C8_termination_witness :
    revealAt gId 22 tinyBoard 0 0 0 ≠ .noFuel :=
  (C8_termination gId 22 tinyBoard 0 0 0 rfl (by decide)).1

/-! ### The chord contract -/

theorem genRange_no_err (g : Nat → Nat) (rpos lo hi : Nat) (e : String) :
    genRange g rpos lo hi ≠ .err e := by
  unfold genRange
  split_ifs <;> intro h <;> exact RRes.noConfusion h

theorem pickCoord_no_err (g : Nat → Nat) (c bound lo1 hi1 lo2 hi2 rpos : Nat)
    (e : String) : pickCoord g c bound lo1 hi1 lo2 hi2 rpos ≠ .err e := by
  unfold pickCoord
  split_ifs with h1 h2 h3
  · rcases hgb : genBool g rpos with ⟨side, r1⟩
    dsimp only
    split_ifs with hside <;>
    · intro h
      split at h
      · exact RRes.noConfusion h
      · rename_i heq
        exact genRange_no_err g r1 _ _ _ heq
      · exact RRes.noConfusion h
      · exact RRes.noConfusion h
  · intro h
    split at h
    · exact RRes.noConfusion h
    · rename_i heq
      exact genRange_no_err g rpos _ _ _ heq
    · exact RRes.noConfusion h
    · exact RRes.noConfusion h
  · intro h
    split at h
    · exact RRes.noConfusion h
    · rename_i heq
      exact genRange_no_err g rpos _ _ _ heq
    · exact RRes.noConfusion h
    · exact RRes.noConfusion h
  · intro h
    exact RRes.noConfusion h

theorem reinsert_no_err (g : Nat → Nat) : ∀ (fuel : Nat)
    (t : Nat → Nat → Tile) (w h x y removed rpos : Nat) (e : String),
    reinsert g fuel t w h x y removed rpos ≠ .err e := by
  intro fuel
  induction fuel with
  | zero =>
    intro t w h x y removed rpos e hcon
    exact RRes.noConfusion hcon
  | succ fuel ih =>
    intro t w h x y removed rpos e hcon
    rw [reinsert] at hcon
    split_ifs at hcon with hr
    · rcases hax : axisRange x w with ⟨xlo1, xhi1, xlo2, xhi2⟩
      rw [hax] at hcon
      dsimp only at hcon
      split at hcon
      · exact RRes.noConfusion hcon
      · rcases hay : axisRange y h with ⟨ylo1, yhi1, ylo2, yhi2⟩
        rw [hay] at hcon
        dsimp only at hcon
        split at hcon
        · exact RRes.noConfusion hcon
        · split_ifs at hcon with hm
          · exact ih _ w h x y (removed - 1) _ e hcon
          · exact ih t w h x y removed _ e hcon
        · rename_i heq
          exact pickCoord_no_err g y h ylo1 yhi1 ylo2 yhi2 _ _ heq
        · exact RRes.noConfusion hcon
        · exact RRes.noConfusion hcon
      · rename_i heq
        exact pickCoord_no_err g x w xlo1 xhi1 xlo2 xhi2 _ _ heq
      · exact RRes.noConfusion hcon
      · exact RRes.noConfusion hcon

theorem guaranteeZero_no_err (g : Nat → Nat) (fuel : Nat) (b : Board)
    (rpos x y : Nat) (e : String) :
    guaranteeZero g fuel b rpos x y ≠ .err e := by
  unfold guaranteeZero
  split_ifs with hb
  · rcases hrm : removeNear b.tiles b.width b.height x y with ⟨t1, removed⟩
    dsimp only
    split_ifs with hassert
    · intro h
      split at h
      · exact RRes.noConfusion h
      · rename_i heq
        exact reinsert_no_err g fuel t1 b.width b.height x y removed rpos _ heq
      · exact RRes.noConfusion h
      · exact RRes.noConfusion h
    · intro h
      exact RRes.noConfusion h
  · intro h
    exact RRes.noConfusion h

theorem revealAt_no_err_inbounds (g : Nat → Nat) (fuel : Nat) (b : Board)
    (rpos x y : Nat) (e : String) (hx : x < b.width) (hy : y < b.height) :
    revealAt g fuel b rpos x y ≠ .err e := by
  cases fuel with
  | zero =>
    intro h
    exact RRes.noConfusion h
  | succ fuel =>
    intro h
    rw [revealAt, if_neg (by omega)] at h
    split at h
    · rename_i b1 r1 heq
      dsimp only at h
      split_ifs at h with hz
      · split at h
        · exact RRes.noConfusion h
        · exact RRes.noConfusion h
        · exact RRes.noConfusion h
        · exact RRes.noConfusion h
    · rename_i e2 heq
      cases hrev : b.any_revealed with
      | true =>
        rw [hrev] at heq
        simp only [Bool.not_true, Bool.false_eq_true, if_false] at heq
        exact RRes.noConfusion heq
      | false =>
        rw [hrev] at heq
        simp only [Bool.not_false, if_true] at heq
        exact guaranteeZero_no_err g (fuel + 1) b rpos x y e2 heq
    · exact RRes.noConfusion h
    · exact RRes.noConfusion h

/-- `reveal_at` returns the revealed cell's tile in the final board. -/
theorem revealAt_tile_eq (g : Nat → Nat) (fuel : Nat) (b : Board)
    (rpos x y : Nat) (t : Tile) (b' : Board) (r' : Nat)
    (hok : revealAt g fuel b rpos x y = .ok (t, b', r')) :
    t = b'.tiles x y := by
  cases fuel with
  | zero => exact RRes.noConfusion hok
  | succ fuel =>
    by_cases hb : x ≥ b.width ∨ y ≥ b.height
    · rw [revealAt_oob g fuel b rpos x y hb] at hok
      exact RRes.noConfusion hok
    · rw [revealAt, if_neg hb] at hok
      split at hok
      · rename_i b1 r1 heq
        dsimp only at hok
        split_ifs at hok with hz
        · split at hok
          · rename_i hv b3 r3 heq2
            simp only [RRes.ok.injEq, Prod.mk.injEq] at hok
            obtain ⟨e1, e2, -⟩ := hok
            rw [← e1, ← e2]
          · exact RRes.noConfusion hok
          · exact RRes.noConfusion hok
          · exact RRes.noConfusion hok
        · simp only [RRes.ok.injEq, Prod.mk.injEq] at hok
          obtain ⟨e1, e2, -⟩ := hok
          rw [← e1, ← e2]
      · exact RRes.noConfusion hok
      · exact RRes.noConfusion hok
      · exact RRes.noConfusion hok

/-- Under the digit invariant, a zero cell has no mine neighbor. -/
theorem zero_no_mine_neighbor (b : Board) (hd : digitsOk b) (x y u v : Nat)
    (hx : x < b.width) (hy : y < b.height)
    (hz : b.tiles x y = Tile.Safe .Zero) (hadj : adjacentCells x y u v)
    (hu : u < b.width) (hv : v < b.height) : b.tiles u v ≠ Tile.Mine := by
  intro hm
  have hinv := hd x hx y hy .Zero hz
  have hcard : specNeighborMines b.tiles b.width b.height x y = 0 :=
    hinv.symm.trans rfl
  unfold specNeighborMines at hcard
  rw [Finset.card_eq_zero] at hcard
  have hmem : (u, v) ∈ ((Finset.range b.width ×ˢ Finset.range b.height).filter
      fun p => adjacentCells x y p.1 p.2 ∧ b.tiles p.1 p.2 = Tile.Mine) :=
    Finset.mem_filter.mpr ⟨Finset.mem_product.mpr
      ⟨Finset.mem_range.mpr hu, Finset.mem_range.mpr hv⟩, hadj, hm⟩
  rw [hcard] at hmem
  exact absurd hmem (Finset.not_mem_empty _)

/-- Revealing a non-mine cell on a started, digit-consistent board never
changes the display of any mine cell: the cascade from zero cells only
reaches safe cells. -/
theorem mine_display_stable (g : Nat → Nat) : ∀ fuel : Nat,
    (∀ c rpos u v t c' r', c.any_revealed = true → digitsOk c →
      c.tiles u v ≠ Tile.Mine →
      revealAt g fuel c rpos u v = .ok (t, c', r') →
      ∀ a d, c.tiles a d = Tile.Mine → c'.display a d = c.display a d) ∧
    (∀ c rpos x y hit c' r', c.any_revealed = true → digitsOk c →
      x < c.width → y < c.height → c.tiles x y = Tile.Safe .Zero →
      revealAdjacent g fuel c rpos x y = .ok (hit, c', r') →
      ∀ a d, c.tiles a d = Tile.Mine → c'.display a d = c.display a d) ∧
    (∀ l c rpos hit c' r', c.any_revealed = true → digitsOk c →
      (∀ p ∈ l, p.1 < c.width ∧ p.2 < c.height ∧ c.tiles p.1 p.2 ≠ Tile.Mine) →
      chordFold g fuel l c rpos = .ok (hit, c', r') →
      ∀ a d, c.tiles a d = Tile.Mine → c'.display a d = c.display a d) := by
  intro fuel
  induction fuel with
  | zero =>
    refine ⟨fun c rpos u v t c' r' h1 h2 h3 hok => ?_,
            fun c rpos x y hit c' r' h1 h2 h3 h4 h5 hok => ?_,
            fun l c rpos hit c' r' h1 h2 h3 hok => ?_⟩ <;>
      exact RRes.noConfusion hok
  | succ fuel ih =>
    obtain ⟨ihA, ihB, ihC⟩ := ih
    refine ⟨fun c rpos u v t c' r' hrev hd hnm hok => ?_,
            fun c rpos x y hit c' r' hrev hd hx hy hz hok => ?_,
            fun l c rpos hit c' r' hrev hd hl hok => ?_⟩
    · by_cases hb : u ≥ c.width ∨ v ≥ c.height
      · rw [revealAt_oob g fuel c rpos u v hb] at hok
        exact RRes.noConfusion hok
      · rw [revealAt_started g fuel c rpos u v hrev (by omega) (by omega)]
          at hok
        have hb2disp : ∀ a d, c.tiles a d = Tile.Mine →
            (upd c.display u v TileDisplay.Revealed) a d = c.display a d := by
          intro a d hm
          unfold upd
          rw [if_neg]
          rintro ⟨rfl, rfl⟩
          exact hnm hm
        split_ifs at hok with hz
        · split at hok
          · rename_i hv2 b3 r3 heq
            simp only [RRes.ok.injEq, Prod.mk.injEq] at hok
            obtain ⟨-, e2, -⟩ := hok
            intro a d hm
            rw [← e2]
            have := ihB
              { c with any_revealed := true,
                       display := upd c.display u v TileDisplay.Revealed }
              rpos u v hv2 b3 r3 rfl
              (digitsOk_congr rfl rfl rfl hd)
              (show u < c.width by omega) (show v < c.height by omega)
              hz heq a d hm
            rw [this]
            exact hb2disp a d hm
          · exact RRes.noConfusion hok
          · exact RRes.noConfusion hok
          · exact RRes.noConfusion hok
        · simp only [RRes.ok.injEq, Prod.mk.injEq] at hok
          obtain ⟨-, e2, -⟩ := hok
          intro a d hm
          rw [← e2]
          exact hb2disp a d hm
    · by_cases hdisp : c.display x y = TileDisplay.Revealed
      · rw [revealAdjacent_eq g fuel c rpos x y hx hy hdisp] at hok
        intro a d hm
        refine ihC (adjOrder c.width c.height x y) c rpos hit c' r' hrev hd
          (fun p hp => ?_) hok a d hm
        obtain ⟨hpw, hph, hpadj⟩ := adjOrder_spec c.width c.height x y hx hy
          p hp
        exact ⟨hpw, hph,
          zero_no_mine_neighbor c hd x y p.1 p.2 hx hy hz hpadj hpw hph⟩
      · rw [revealAdjacent_not_revealed g fuel c rpos x y hx hy hdisp] at hok
        exact RRes.noConfusion hok
    · cases l with
      | nil =>
        simp only [chordFold, RRes.ok.injEq, Prod.mk.injEq] at hok
        obtain ⟨-, e2, -⟩ := hok
        intro a d hm
        rw [← e2]
      | cons p rest =>
        have hp := hl p (List.mem_cons_self p rest)
        simp only [chordFold] at hok
        split at hok
        · rename_i hh
          split at hok
          · rename_i tv bi ri heq
            have hev := (evolves_main g fuel).1 c rpos p.1 p.2 tv bi ri hrev heq
            have htv : tv ≠ Tile.Mine := by
              rw [revealAt_tile_eq g fuel c rpos p.1 p.2 tv bi ri heq]
              rw [show bi.tiles = c.tiles from hev.2.2.2.1]
              exact hp.2.2
            split_ifs at hok with hmine
            · exact absurd hmine htv
            · intro a d hm
              have hstab1 := ihA c rpos p.1 p.2 tv bi ri hrev hd hp.2.2 heq
              have hstab2 := ihC rest bi ri hit c' r' hev.2.2.2.2.1
                (digitsOk_of_evolves hev hd) (fun q hq => by
                  rw [hev.1, hev.2.1, show bi.tiles = c.tiles from hev.2.2.2.1]
                  exact hl q (List.mem_cons_of_mem p hq)) hok
              rw [hstab2 a d (by
                  rw [show bi.tiles = c.tiles from hev.2.2.2.1]
                  exact hm)]
              exact hstab1 a d hm
          · exact ihC rest c rpos hit c' r' hrev hd
              (fun q hq => hl q (List.mem_cons_of_mem p hq)) hok
          · exact RRes.noConfusion hok
          · exact RRes.noConfusion hok
        · exact ihC rest c rpos hit c' r' hrev hd
            (fun q hq => hl q (List.mem_cons_of_mem p hq)) hok

/-- Characterization of the neighbor loop on a started, digit-consistent
board: the result evolves the board; `Ok(true)` comes back exactly when
some listed cell was a hidden mine; and on `Ok(false)` every listed,
previously-hidden cell has been revealed. -/
theorem chordFold_char (g : Nat → Nat) : ∀ (fuel : Nat) (l : List (Nat × Nat))
    (c : Board) (rpos : Nat) (hit : Bool) (b' : Board) (r' : Nat),
    c.any_revealed = true → digitsOk c →
    (∀ p ∈ l, p.1 < c.width ∧ p.2 < c.height) →
    chordFold g fuel l c rpos = .ok (hit, b', r') →
    Evolves c b' ∧
    (hit = true ↔ ∃ p ∈ l, c.display p.1 p.2 = TileDisplay.Hidden ∧
      c.tiles p.1 p.2 = Tile.Mine) ∧
    (hit = false → ∀ p ∈ l, c.display p.1 p.2 = TileDisplay.Hidden →
      b'.display p.1 p.2 = TileDisplay.Revealed) := by
  intro fuel
  induction fuel with
  | zero =>
    intro l c rpos hit b' r' h1 h2 h3 hok
    exact RRes.noConfusion hok
  | succ fuel ih =>
    intro l c rpos hit b' r' hrev hd hl hok
    cases l with
    | nil =>
      simp only [chordFold, RRes.ok.injEq, Prod.mk.injEq] at hok
      obtain ⟨e1, e2, -⟩ := hok
      subst e1
      subst e2
      refine ⟨evolves_refl hrev, by simp, ?_⟩
      intro _ p hp _
      exact absurd hp (List.not_mem_nil p)
    | cons p rest =>
      have hpb := hl p (List.mem_cons_self p rest)
      simp only [chordFold] at hok
      split at hok
      · rename_i hh
        split at hok
        · rename_i tv bi ri heq
          have hev := (evolves_main g fuel).1 c rpos p.1 p.2 tv bi ri hrev heq
          have hbt : bi.tiles = c.tiles := hev.2.2.2.1
          have htv : tv = c.tiles p.1 p.2 := by
            rw [revealAt_tile_eq g fuel c rpos p.1 p.2 tv bi ri heq, hbt]
          split_ifs at hok with hmine
          · simp only [RRes.ok.injEq, Prod.mk.injEq] at hok
            obtain ⟨e1, e2, -⟩ := hok
            subst e1
            subst e2
            refine ⟨hev, ⟨fun _ => ⟨p, List.mem_cons_self p rest, hh,
              htv ▸ hmine⟩, fun _ => rfl⟩, fun hco => absurd hco (by simp)⟩
          · have hnm : c.tiles p.1 p.2 ≠ Tile.Mine := fun hmm =>
              hmine (by rw [htv]; exact hmm)
            have hstab := (mine_display_stable g fuel).1 c rpos p.1 p.2 tv
              bi ri hrev hd hnm heq
            obtain ⟨hev2, hiff, hrevall⟩ := ih rest bi ri hit b' r'
              hev.2.2.2.2.1 (digitsOk_of_evolves hev hd)
              (fun q hq => by
                rw [hev.1, hev.2.1]
                exact hl q (List.mem_cons_of_mem p hq)) hok
            refine ⟨evolves_trans hev hev2, ?_, ?_⟩
            · rw [hiff]
              constructor
              · rintro ⟨q, hq, hqh, hqm⟩
                have hcm : c.tiles q.1 q.2 = Tile.Mine := by
                  rw [← hbt]
                  exact hqm
                refine ⟨q, List.mem_cons_of_mem p hq, ?_, hcm⟩
                rw [← hstab q.1 q.2 hcm]
                exact hqh
              · rintro ⟨q, hq, hqh, hqm⟩
                rcases List.mem_cons.mp hq with rfl | hq'
                · exact absurd hqm hnm
                · refine ⟨q, hq', ?_, by rw [hbt]; exact hqm⟩
                  rw [hstab q.1 q.2 hqm]
                  exact hqh
            · intro hco q hq hqh
              rcases List.mem_cons.mp hq with rfl | hq'
              · have hrq := revealAt_reveals g fuel c rpos q.1 q.2 tv bi ri heq
                rcases hev2.2.2.2.2.2 q.1 q.2 with e | e
                · rw [e]
                  exact hrq
                · exact e
              · rcases hev.2.2.2.2.2 q.1 q.2 with e | e
                · exact hrevall hco q hq' (by rw [e]; exact hqh)
                · rcases hev2.2.2.2.2.2 q.1 q.2 with e2 | e2
                  · rw [e2]
                    exact e
                  · exact e2
        · rename_i e heq
          exact absurd heq
            (revealAt_no_err_inbounds g fuel c rpos p.1 p.2 e hpb.1 hpb.2)
        · exact RRes.noConfusion hok
        · exact RRes.noConfusion hok
      · rename_i hh
        obtain ⟨hev2, hiff, hrevall⟩ := ih rest c rpos hit b' r' hrev hd
          (fun q hq => hl q (List.mem_cons_of_mem p hq)) hok
        refine ⟨hev2, ?_, ?_⟩
        · rw [hiff]
          constructor
          · rintro ⟨q, hq, hqh, hqm⟩
            exact ⟨q, List.mem_cons_of_mem p hq, hqh, hqm⟩
          · rintro ⟨q, hq, hqh, hqm⟩
            rcases List.mem_cons.mp hq with rfl | hq'
            · exact absurd hqh hh
            · exact ⟨q, hq', hqh, hqm⟩
        · intro hco q hq hqh
          rcases List.mem_cons.mp hq with rfl | hq'
          · exact absurd hqh hh
          · exact hrevall hco q hq' hqh

/-- Claim C7 (corrected): on a started, digit-consistent board,
`reveal_adjacent` at an in-bounds revealed cell returns `Ok(true)` iff some
hidden neighbor holds a mine, and on `Ok(false)` every previously-hidden
neighbor has been revealed; at a non-revealed cell it fails with the
cannot-chord condition.  The original claim's "reveals each hidden
neighbor" is false when a mine is hit: the method returns `Ok(true)` at the
first revealed mine and skips the remaining neighbors. -/
theorem C7_adjacent_reveal (g : Nat → Nat) (fuel : Nat) (b : Board)
    (rpos x y : Nat) (hit : Bool) (b' : Board) (r' : Nat)
    (hrev : b.any_revealed = true) (hd : digitsOk b)
    (hx : x < b.width) (hy : y < b.height) :
    (b.display x y ≠ TileDisplay.Revealed →
      revealAdjacent g (fuel + 1) b rpos x y =
        .err "Shouldn't try to reveal adjacent to unrevealed tile") ∧
    (b.display x y = TileDisplay.Revealed →
      revealAdjacent g (fuel + 1) b rpos x y = .ok (hit, b', r') →
      (hit = true ↔ ∃ u v, u < b.width ∧ v < b.height ∧
        adjacentCells x y u v ∧ b.display u v = TileDisplay.Hidden ∧
        b.tiles u v = Tile.Mine) ∧
      (hit = false → ∀ u v, u < b.width → v < b.height →
        adjacentCells x y u v → b.display u v = TileDisplay.Hidden →
          b'.display u v = TileDisplay.Revealed)) := by
  constructor
  · intro hnd
    exact revealAdjacent_not_revealed g fuel b rpos x y hx hy hnd
  · intro hdisp hok
    rw [revealAdjacent_eq g fuel b rpos x y hx hy hdisp] at hok
    obtain ⟨hev, hiff, hrevall⟩ := chordFold_char g fuel
      (adjOrder b.width b.height x y) b rpos hit b' r' hrev hd
      (fun p hp => ⟨(adjOrder_spec b.width b.height x y hx hy p hp).1,
        (adjOrder_spec b.width b.height x y hx hy p hp).2.1⟩) hok
    constructor
    · rw [hiff]
      constructor
      · rintro ⟨q, hq, hqh, hqm⟩
        obtain ⟨hqw, hqhh, hqadj⟩ := adjOrder_spec b.width b.height x y hx hy
          q hq
        exact ⟨q.1, q.2, hqw, hqhh, hqadj, hqh, hqm⟩
      · rintro ⟨u, v, hu, hv, hadj, hdh, hmm⟩
        exact ⟨(u, v), mem_adjOrder b.width b.height x y u v hx hy hu hv hadj,
          hdh, hmm⟩
    · intro hco u v hu hv hadj hdh
      exact hrevall hco (u, v)
        (mem_adjOrder b.width b.height x y u v hx hy hu hv hadj) hdh

/-- Witness for C7_adjacent_reveal: chording the revealed corner of the
mine-free 2×1 board reveals its hidden neighbor and reports no mine. -/
theorem C7_adjacent_reveal_witness :
    ∃ b' r', revealAdjacent gId 30 chord2Board 0 0 0 = .ok (false, b', r') ∧
      b'.display 1 0 = TileDisplay.Revealed := by
  refine ⟨_, _, rfl, ?_⟩
  exact ((C7_adjacent_reveal gId 29 chord2Board 0 0 0 false _ _ rfl
      (updateDigits_digitsOk (fun _ _ => Tile.Safe .Zero) 2 1)
      (by decide) (by decide)).2 rfl rfl).2 rfl 1 0 (by decide) (by decide)
    (by decide) rfl

/-- Counterexample to C7 as stated: chording the middle of
`Mine | Safe(1) | Safe(0)` (middle revealed, ends hidden) answers
`Ok(true)` for the mine on the left but leaves the hidden right
neighbor `(2, 0)` unrevealed. -/
theorem C7_adjacent_reveal_cex :
    ∃ b' r', revealAdjacent gId 50 chordBoard 0 1 0 = .ok (true, b', r') ∧
      chordBoard.display 2 0 = TileDisplay.Hidden ∧
      b'.display 2 0 = TileDisplay.Hidden :=
  ⟨_, _, rfl, rfl, rfl⟩

/-! ### Flood-fill exactness -/

theorem zeroRegion_spec {b : Board} {x y u v : Nat}
    (h : InZeroRegion b x y u v) :
    u < b.width ∧ v < b.height ∧ b.tiles u v = Tile.Safe .Zero := by
  induction h with
  | base hx hy hz => exact ⟨hx, hy, hz⟩
  | step _ _ hu hv hz _ => exact ⟨hu, hv, hz⟩

theorem zeroClosure_zero_region {b : Board} {x y u v : Nat}
    (h : InZeroClosure b x y u v) (hz : b.tiles u v = Tile.Safe .Zero) :
    InZeroRegion b x y u v := by
  rcases h with h | ⟨p, q, hreg, hadj, hu, hv⟩
  · exact h
  · exact .step hreg hadj hu hv hz

theorem goodStep_refl (c : Board) : GoodStep c c := by
  intro u v _ _ _ hne hrev
  exact absurd hrev hne

theorem goodStep_trans {a b c : Board} (hab : Evolves a b) (hbc : Evolves b c)
    (g1 : GoodStep a b) (g2 : GoodStep b c) : GoodStep a c := by
  intro u v hu hv hz hne hrev p q hp hq hadj
  by_cases hmid : b.display u v = TileDisplay.Revealed
  · rcases g1 u v hu hv hz hne hmid p q hp hq hadj with h | ⟨he, hh⟩
    · rcases hbc.2.2.2.2.2 p q with e | e
      · exact Or.inl (e.trans h)
      · exact Or.inl e
    · rcases hbc.2.2.2.2.2 p q with e | e
      · exact Or.inr ⟨e.trans he, hh⟩
      · exact Or.inl e
  · have hz2 : b.tiles u v = Tile.Safe .Zero := by
      rw [hab.2.2.2.1]
      exact hz
    have hu2 : u < b.width := by
      rw [hab.1]
      exact hu
    have hv2 : v < b.height := by
      rw [hab.2.1]
      exact hv
    have hp2 : p < b.width := by
      rw [hab.1]
      exact hp
    have hq2 : q < b.height := by
      rw [hab.2.1]
      exact hq
    rcases g2 u v hu2 hv2 hz2 hmid hrev p q hp2 hq2 hadj with h | ⟨he, hh⟩
    · exact Or.inl h
    · rcases hab.2.2.2.2.2 p q with e | e
      · refine Or.inr ⟨he.trans e, ?_⟩
        rw [← e]
        exact hh
      · exact Or.inl (he.trans e)

/-- Soundness of the cascade: starting anywhere inside the zero closure of
`(x, y)`, the recursion only ever touches closure cells, so every display
outside the closure is unchanged. -/
theorem outside_closure_stable (g : Nat → Nat) (b : Board) (x y : Nat) :
    ∀ fuel : Nat,
    (∀ c rpos u v t c' r', c.any_revealed = true →
      c.tiles = b.tiles → c.width = b.width → c.height = b.height →
      InZeroClosure b x y u v →
      revealAt g fuel c rpos u v = .ok (t, c', r') →
      ∀ p q, ¬InZeroClosure b x y p q → c'.display p q = c.display p q) ∧
    (∀ c rpos u v hit c' r', c.any_revealed = true →
      c.tiles = b.tiles → c.width = b.width → c.height = b.height →
      InZeroRegion b x y u v →
      revealAdjacent g fuel c rpos u v = .ok (hit, c', r') →
      ∀ p q, ¬InZeroClosure b x y p q → c'.display p q = c.display p q) ∧
    (∀ l c rpos hit c' r', c.any_revealed = true →
      c.tiles = b.tiles → c.width = b.width → c.height = b.height →
      (∀ p ∈ l, InZeroClosure b x y p.1 p.2) →
      chordFold g fuel l c rpos = .ok (hit, c', r') →
      ∀ p q, ¬InZeroClosure b x y p q → c'.display p q = c.display p q) := by
  intro fuel
  induction fuel with
  | zero =>
    refine ⟨fun c rpos u v t c' r' h1 h2 h3 h4 h5 hok => ?_,
            fun c rpos u v hit c' r' h1 h2 h3 h4 h5 hok => ?_,
            fun l c rpos hit c' r' h1 h2 h3 h4 h5 hok => ?_⟩ <;>
      exact RRes.noConfusion hok
  | succ fuel ih =>
    obtain ⟨ihA, ihB, ihC⟩ := ih
    refine ⟨fun c rpos u v t c' r' hrev ht hw hh hcl hok => ?_,
            fun c rpos u v hit c' r' hrev ht hw hh hreg hok => ?_,
            fun l c rpos hit c' r' hrev ht hw hh hl hok => ?_⟩
    · by_cases hb : u ≥ c.width ∨ v ≥ c.height
      · rw [revealAt_oob g fuel c rpos u v hb] at hok
        exact RRes.noConfusion hok
      · rw [revealAt_started g fuel c rpos u v hrev (by omega) (by omega)]
          at hok
        have hupd : ∀ p q, ¬InZeroClosure b x y p q →
            upd c.display u v TileDisplay.Revealed p q = c.display p q := by
          intro p q hnc
          unfold upd
          rw [if_neg]
          rintro ⟨rfl, rfl⟩
          exact hnc hcl
        split_ifs at hok with hz
        · split at hok
          · rename_i hv2 b3 r3 heq
            simp only [RRes.ok.injEq, Prod.mk.injEq] at hok
            obtain ⟨-, e2, -⟩ := hok
            intro p q hnc
            rw [← e2]
            have hregU : InZeroRegion b x y u v :=
              zeroClosure_zero_region hcl (by rw [← ht]; exact hz)
            rw [ihB { c with any_revealed := true,
                             display := upd c.display u v TileDisplay.Revealed }
              rpos u v hv2 b3 r3 rfl ht hw hh hregU heq p q hnc]
            exact hupd p q hnc
          · exact RRes.noConfusion hok
          · exact RRes.noConfusion hok
          · exact RRes.noConfusion hok
        · simp only [RRes.ok.injEq, Prod.mk.injEq] at hok
          obtain ⟨-, e2, -⟩ := hok
          intro p q hnc
          rw [← e2]
          exact hupd p q hnc
    · have hu : u < c.width := by
        rw [hw]
        exact (zeroRegion_spec hreg).1
      have hv : v < c.height := by
        rw [hh]
        exact (zeroRegion_spec hreg).2.1
      by_cases hdisp : c.display u v = TileDisplay.Revealed
      · rw [revealAdjacent_eq g fuel c rpos u v hu hv hdisp] at hok
        refine ihC (adjOrder c.width c.height u v) c rpos hit c' r' hrev ht hw
          hh (fun p hp => ?_) hok
        obtain ⟨hpw, hph, hpadj⟩ := adjOrder_spec c.width c.height u v hu hv
          p hp
        refine Or.inr ⟨u, v, hreg, hpadj, ?_, ?_⟩
        · rw [← hw]
          exact hpw
        · rw [← hh]
          exact hph
      · rw [revealAdjacent_not_revealed g fuel c rpos u v hu hv hdisp] at hok
        exact RRes.noConfusion hok
    · cases l with
      | nil =>
        simp only [chordFold, RRes.ok.injEq, Prod.mk.injEq] at hok
        obtain ⟨-, e2, -⟩ := hok
        intro p q hnc
        rw [← e2]
      | cons p rest =>
        simp only [chordFold] at hok
        split at hok
        · rename_i hhid
          split at hok
          · rename_i tv bi ri heq
            have hev := (evolves_main g fuel).1 c rpos p.1 p.2 tv bi ri hrev
              heq
            have hbt : bi.tiles = b.tiles := by
              rw [hev.2.2.2.1]
              exact ht
            have hbw : bi.width = b.width := by
              rw [hev.1]
              exact hw
            have hbh : bi.height = b.height := by
              rw [hev.2.1]
              exact hh
            have hstep := ihA c rpos p.1 p.2 tv bi ri hrev ht hw hh
              (hl p (List.mem_cons_self p rest)) heq
            split_ifs at hok with hmine
            · simp only [RRes.ok.injEq, Prod.mk.injEq] at hok
              obtain ⟨-, e2, -⟩ := hok
              intro a d hnc
              rw [← e2]
              exact hstep a d hnc
            · have hrest := ihC rest bi ri hit c' r' hev.2.2.2.2.1 hbt hbw hbh
                (fun q hq => hl q (List.mem_cons_of_mem p hq)) hok
              intro a d hnc
              rw [hrest a d hnc]
              exact hstep a d hnc
          · exact ihC rest c rpos hit c' r' hrev ht hw hh
              (fun q hq => hl q (List.mem_cons_of_mem p hq)) hok
          · exact RRes.noConfusion hok
          · exact RRes.noConfusion hok
        · exact ihC rest c rpos hit c' r' hrev ht hw hh
            (fun q hq => hl q (List.mem_cons_of_mem p hq)) hok

/-- Completeness of the cascade: on a started, digit-consistent board every
successful reveal / chord / neighbor-loop run is a `GoodStep`: any zero cell
it newly reveals gets all of its in-bounds neighbors revealed too, except
neighbors that were blocked in a non-`Hidden` state. -/
theorem chord_complete (g : Nat → Nat) : ∀ fuel : Nat,
    (∀ c rpos u v t c' r', c.any_revealed = true → digitsOk c →
      revealAt g fuel c rpos u v = .ok (t, c', r') → GoodStep c c') ∧
    (∀ c rpos u v hit c' r', c.any_revealed = true → digitsOk c →
      revealAdjacent g fuel c rpos u v = .ok (hit, c', r') →
      GoodStep c c') ∧
    (∀ l c rpos hit c' r', c.any_revealed = true → digitsOk c →
      chordFold g fuel l c rpos = .ok (hit, c', r') → GoodStep c c') := by
  intro fuel
  induction fuel with
  | zero =>
    refine ⟨fun c rpos u v t c' r' h1 h2 hok => ?_,
            fun c rpos u v hit c' r' h1 h2 hok => ?_,
            fun l c rpos hit c' r' h1 h2 hok => ?_⟩ <;>
      exact RRes.noConfusion hok
  | succ fuel ih =>
    obtain ⟨ihA, ihB, ihC⟩ := ih
    refine ⟨fun c rpos u v t c' r' hrev hd hok => ?_,
            fun c rpos u v hit c' r' hrev hd hok => ?_,
            fun l c rpos hit c' r' hrev hd hok => ?_⟩
    · by_cases hb : u ≥ c.width ∨ v ≥ c.height
      · rw [revealAt_oob g fuel c rpos u v hb] at hok
        exact RRes.noConfusion hok
      · have hu : u < c.width := by omega
        have hv : v < c.height := by omega
        rw [revealAt_started g fuel c rpos u v hrev hu hv] at hok
        split_ifs at hok with hz
        · split at hok
          · rename_i hv2 b3 r3 heq
            simp only [RRes.ok.injEq, Prod.mk.injEq] at hok
            obtain ⟨-, e2, -⟩ := hok
            rw [← e2]
            intro w z hw' hz' hzw hne hrevd p q hp hq hadj
            by_cases hwz : w = u ∧ z = v
            · obtain ⟨rfl, rfl⟩ := hwz
              have hpne : ¬(p = w ∧ q = z) := hadj.2.2.2.2
              have hcpq : upd c.display w z TileDisplay.Revealed p q =
                  c.display p q := by
                simp only [upd]
                rw [if_neg hpne]
              cases fuel with
              | zero => exact RRes.noConfusion heq
              | succ f =>
                have hd1 : upd c.display w z TileDisplay.Revealed w z =
                    TileDisplay.Revealed := by
                  simp [upd]
                rw [revealAdjacent_eq g f
                  { c with any_revealed := true,
                           display := upd c.display w z TileDisplay.Revealed }
                  rpos w z hw' hz' hd1] at heq
                obtain ⟨hevc, hiff, hall⟩ := chordFold_char g f _
                  { c with any_revealed := true,
                           display := upd c.display w z TileDisplay.Revealed }
                  rpos hv2 b3 r3 rfl (digitsOk_congr rfl rfl rfl hd)
                  (fun pp hpp => ⟨(adjOrder_spec c.width c.height w z hw' hz'
                      pp hpp).1,
                    (adjOrder_spec c.width c.height w z hw' hz' pp hpp).2.1⟩)
                  heq
                have hv2f : hv2 = false := by
                  cases hv2 with
                  | false => rfl
                  | true =>
                    exfalso
                    obtain ⟨pp, hpp, hph, hpm⟩ := hiff.mp rfl
                    obtain ⟨hppw, hpph, hppadj⟩ := adjOrder_spec c.width
                      c.height w z hw' hz' pp hpp
                    exact zero_no_mine_neighbor c hd w z pp.1 pp.2 hw' hz' hzw
                      hppadj hppw hpph hpm
                have hpmem : (p, q) ∈ adjOrder c.width c.height w z :=
                  mem_adjOrder c.width c.height w z p q hw' hz' hp hq hadj
                by_cases hph2 : c.display p q = TileDisplay.Hidden
                · exact Or.inl (hall hv2f (p, q) hpmem (hcpq.trans hph2))
                · rcases hevc.2.2.2.2.2 p q with e | e
                  · exact Or.inr ⟨e.trans hcpq, hph2⟩
                  · exact Or.inl e
            · have hcwz : upd c.display u v TileDisplay.Revealed w z =
                  c.display w z := by
                simp only [upd]
                rw [if_neg hwz]
              have hgs1 := ihB
                { c with any_revealed := true,
                         display := upd c.display u v TileDisplay.Revealed }
                rpos u v hv2 b3 r3 rfl (digitsOk_congr rfl rfl rfl hd) heq
              have hres := hgs1 w z hw' hz' hzw
                (fun hcon => hne (hcwz.symm.trans hcon)) hrevd p q hp hq hadj
              by_cases hpq : p = u ∧ q = v
              · obtain ⟨rfl, rfl⟩ := hpq
                have hd1 : upd c.display p q TileDisplay.Revealed p q =
                    TileDisplay.Revealed := by
                  simp [upd]
                rcases hres with h1 | ⟨h1, -⟩
                · exact Or.inl h1
                · exact Or.inl (h1.trans hd1)
              · have hcpq : upd c.display u v TileDisplay.Revealed p q =
                    c.display p q := by
                  simp only [upd]
                  rw [if_neg hpq]
                rcases hres with h1 | ⟨h1, h2⟩
                · exact Or.inl h1
                · exact Or.inr ⟨h1.trans hcpq, fun hcon =>
                    h2 (hcpq.trans hcon)⟩
          · exact RRes.noConfusion hok
          · exact RRes.noConfusion hok
          · exact RRes.noConfusion hok
        · simp only [RRes.ok.injEq, Prod.mk.injEq] at hok
          obtain ⟨-, e2, -⟩ := hok
          rw [← e2]
          intro w z hw' hz' hzw hne hrevd p q hp hq hadj
          by_cases hwz : w = u ∧ z = v
          · obtain ⟨rfl, rfl⟩ := hwz
            exact absurd hzw hz
          · have hcwz : upd c.display u v TileDisplay.Revealed w z =
                c.display w z := by
              simp only [upd]
              rw [if_neg hwz]
            exact absurd (hcwz.symm.trans hrevd) hne
    · by_cases hb : u ≥ c.width ∨ v ≥ c.height
      · rw [revealAdjacent_oob g fuel c rpos u v hb] at hok
        exact RRes.noConfusion hok
      · by_cases hdisp : c.display u v = TileDisplay.Revealed
        · rw [revealAdjacent_eq g fuel c rpos u v (by omega) (by omega)
            hdisp] at hok
          exact ihC _ c rpos hit c' r' hrev hd hok
        · rw [revealAdjacent_not_revealed g fuel c rpos u v (by omega)
            (by omega) hdisp] at hok
          exact RRes.noConfusion hok
    · cases l with
      | nil =>
        simp only [chordFold, RRes.ok.injEq, Prod.mk.injEq] at hok
        obtain ⟨-, e2, -⟩ := hok
        rw [← e2]
        exact goodStep_refl c
      | cons p rest =>
        simp only [chordFold] at hok
        split at hok
        · rename_i hhid
          split at hok
          · rename_i tv bi ri heq
            have hev := (evolves_main g fuel).1 c rpos p.1 p.2 tv bi ri hrev
              heq
            have hgs1 := ihA c rpos p.1 p.2 tv bi ri hrev hd heq
            split_ifs at hok with hmine
            · simp only [RRes.ok.injEq, Prod.mk.injEq] at hok
              obtain ⟨-, e2, -⟩ := hok
              rw [← e2]
              exact hgs1
            · have hev2 := (evolves_main g fuel).2.2 rest bi ri hit c' r'
                hev.2.2.2.2.1 hok
              exact goodStep_trans hev hev2 hgs1 (ihC rest bi ri hit c' r'
                hev.2.2.2.2.1 (digitsOk_of_evolves hev hd) hok)
          · exact ihC rest c rpos hit c' r' hrev hd hok
          · exact RRes.noConfusion hok
          · exact RRes.noConfusion hok
        · exact ihC rest c rpos hit c' r' hrev hd hok

/-- Claim C6 (corrected): on a started, digit-consistent board, if the
clicked cell is an in-bounds `Safe(0)` cell and every cell of its zero
region and the region's border is `Hidden`, then a successful reveal marks
exactly the region plus its border `Revealed` and changes the display of no
other cell.  The original claim fails without the `Hidden` precondition:
`Flagged`/`Questioned` cells inside the region block the cascade. -/
theorem C6_flood_fill (g : Nat → Nat) (fuel : Nat) (b : Board)
    (rpos x y : Nat) (t : Tile) (b' : Board) (r' : Nat)
    (hrev : b.any_revealed = true) (hd : digitsOk b)
    (hx : x < b.width) (hy : y < b.height)
    (hz : b.tiles x y = Tile.Safe .Zero)
    (hhid : ∀ u v, InZeroClosure b x y u v →
      b.display u v = TileDisplay.Hidden)
    (hok : revealAt g fuel b rpos x y = .ok (t, b', r')) :
    (∀ u v, InZeroClosure b x y u v →
      b'.display u v = TileDisplay.Revealed) ∧
    (∀ u v, ¬InZeroClosure b x y u v → b'.display u v = b.display u v) := by
  have hgs : GoodStep b b' :=
    (chord_complete g fuel).1 b rpos x y t b' r' hrev hd hok
  have hclick : b'.display x y = TileDisplay.Revealed :=
    revealAt_reveals g fuel b rpos x y t b' r' hok
  have hregion : ∀ u v, InZeroRegion b x y u v →
      b'.display u v = TileDisplay.Revealed := by
    intro u v h
    induction h with
    | base _ _ _ => exact hclick
    | step hprev hadj hu hv hz2 ihp =>
      obtain ⟨huu, hvv, hzz⟩ := zeroRegion_spec hprev
      have hwas := hhid _ _ (Or.inl hprev)
      rcases hgs _ _ huu hvv hzz
        (fun hcon => TileDisplay.noConfusion (hwas.symm.trans hcon)) ihp
        _ _ hu hv hadj with h1 | ⟨-, h2⟩
      · exact h1
      · exact absurd (hhid _ _ (Or.inl (.step hprev hadj hu hv hz2))) h2
  refine ⟨?_, (outside_closure_stable g b x y fuel).1 b rpos x y t b' r' hrev
    rfl rfl rfl (Or.inl (.base hx hy hz)) hok⟩
  intro u v hcl
  rcases hcl with hreg | ⟨p, q, hreg, hadj, hu, hv⟩
  · exact hregion u v hreg
  · obtain ⟨hpw, hqh, hpz⟩ := zeroRegion_spec hreg
    have hwas := hhid _ _ (Or.inl hreg)
    rcases hgs p q hpw hqh hpz
      (fun hcon => TileDisplay.noConfusion (hwas.symm.trans hcon))
      (hregion p q hreg) u v hu hv hadj with h1 | ⟨-, h2⟩
    · exact h1
    · exact absurd (hhid u v (Or.inr ⟨p, q, hreg, hadj, hu, hv⟩)) h2

/-- Witness for C6_flood_fill: revealing the lone hidden zero cell of the
1×1 board reveals its (single-cell) zero region. -/
theorem C6_flood_fill_witness :
    ∃ t b' r', revealAt gId 22 tinyBoard 0 0 0 = .ok (t, b', r') ∧
      b'.display 0 0 = TileDisplay.Revealed := by
  have hdok : digitsOk tinyBoard := by
    intro u hu v hv d hd
    have hu1 : u < 1 := hu
    have hv1 : v < 1 := hv
    injection hd with e
    subst e
    have hu0 : u = 0 := by omega
    have hv0 : v = 0 := by omega
    subst hu0
    subst hv0
    decide
  refine ⟨_, _, _, rfl, ?_⟩
  exact (C6_flood_fill gId 22 tinyBoard 0 0 0 _ _ _ rfl hdok (by decide)
      (by decide) rfl (fun _ _ _ => rfl) rfl).1 0 0
    (Or.inl (.base (by decide) (by decide) rfl))

/-- Counterexample to C6 as stated: on the all-zero 3×1 strip with a flag
on the middle cell, `(2, 0)` lies in the zero region of the click `(0, 0)`,
yet revealing `(0, 0)` leaves it `Hidden` — the flag blocks the cascade. -/
theorem C6_flood_fill_cex :
    ∃ t b' r', revealAt gId 40 flagBoard 0 0 0 = .ok (t, b', r') ∧
      InZeroRegion flagBoard 0 0 2 0 ∧
      b'.display 2 0 = TileDisplay.Hidden := by
  refine ⟨_, _, _, rfl, ?_, rfl⟩
  have h1 : InZeroRegion flagBoard 0 0 1 0 :=
    .step (.base (by decide) (by decide) rfl) (by decide) (by decide)
      (by decide) rfl
  exact .step h1 (by decide) (by decide) (by decide) rfl

/-- Claim C10 (corrected): for every in-bounds cell, `toggle` applies the
cycle `Hidden → Flag → Question → Hidden` (with `Revealed` a fixed point,
so toggling a revealed cell is a no-op) and returns the resulting state;
the cycle returns a non-revealed cell to its start after THREE toggles, not
four as the claim says. -/
theorem C10_toggle_cycle (b : Board) (x y : Nat)
    (hx : x < b.width) (hy : y < b.height) :
    toggleDisplayAt b x y =
      .ok (nextDisplay (b.display x y),
        { b with display := upd b.display x y (nextDisplay (b.display x y)) }) ∧
    nextDisplay TileDisplay.Hidden = TileDisplay.Flag ∧
    nextDisplay TileDisplay.Flag = TileDisplay.Question ∧
    nextDisplay TileDisplay.Question = TileDisplay.Hidden ∧
    nextDisplay TileDisplay.Revealed = TileDisplay.Revealed ∧
    (∀ d, nextDisplay (nextDisplay (nextDisplay d)) = d ∨
      d = TileDisplay.Revealed) := by
  refine ⟨?_, rfl, rfl, rfl, rfl, ?_⟩
  · have hcond : ¬(x ≥ b.width ∨ y ≥ b.height) := by omega
    rw [toggleDisplayAt, if_neg hcond]
  · intro d
    cases d <;> simp [nextDisplay]

/-- Witness for C10_toggle_cycle at the 1×1 board. -/
theorem C10_toggle_cycle_witness :
    toggleDisplayAt tinyBoard 0 0 =
      .ok (nextDisplay (tinyBoard.display 0 0),
        { tinyBoard with
            display := upd tinyBoard.display 0 0 (nextDisplay (tinyBoard.display 0 0)) }) :=
  (C10_toggle_cycle tinyBoard 0 0 (by decide) (by decide)).1

/-- Counterexample to C10 as stated: toggling the hidden cell of the 1×1
board four times leaves it `Flag`, not `Hidden`. -/
theorem C10_toggle_cycle_cex :
    dispOf (toggleNTimes tinyBoard 0 0 4) = some TileDisplay.Flag ∧
    some TileDisplay.Flag ≠ some TileDisplay.Hidden :=
  ⟨rfl, by decide⟩

/-- Claim C9: `check_victory` is true iff every in-bounds `Safe` cell is
`Revealed` (mine cells' display states are irrelevant), and un-revealing
any single in-bounds safe cell makes it false.  The embedding of
`check_victory` is a pure function of the board, so it mutates nothing. -/
theorem C9_victory (b : Board) :
    (checkVictory b = true ↔
      ∀ x < b.width, ∀ y < b.height, ∀ d, b.tiles x y = Tile.Safe d →
        b.display x y = TileDisplay.Revealed) ∧
    (∀ x < b.width, ∀ y < b.height, ∀ d, b.tiles x y = Tile.Safe d →
      ∀ s, s ≠ TileDisplay.Revealed →
        checkVictory { b with display := upd b.display x y s } = false) := by
  have key : ∀ c : Board, checkVictory c = true ↔
      ∀ x < c.width, ∀ y < c.height, ∀ d, c.tiles x y = Tile.Safe d →
        c.display x y = TileDisplay.Revealed := by
    intro c
    unfold checkVictory
    simp only [List.all_eq_true, List.mem_range]
    constructor
    · intro h x hx y hy d hd
      have := h x hx y hy
      rw [hd] at this
      simpa using this
    · intro h x hx y hy
      cases htile : c.tiles x y with
      | Safe d =>
        have := h x hx y hy d htile
        simp [this]
      | Mine => simp
  refine ⟨key b, ?_⟩
  intro x hx y hy d hd s hs
  cases hcv : checkVictory { b with display := upd b.display x y s } with
  | false => rfl
  | true =>
    exfalso
    have := (key _).mp hcv x hx y hy d hd
    simp [upd] at this
    exact hs this

/-- Witness for C9_victory's hypothesised part at the 1×1 board. -/
theorem C9_victory_witness :
    checkVictory
      { tinyBoard with display := upd tinyBoard.display 0 0 TileDisplay.Flag }
      = false :=
  (C9_victory tinyBoard).2 0 (by decide) 0 (by decide) .Zero (by decide)
    TileDisplay.Flag (by decide)

/-- Claim C5 (corrected): out of bounds, `reveal_at`, `toggle_display_at`,
`get_tile_at` and `get_display_at` fail with a typed error, but
`reveal_adjacent` panics on its unguarded `display[x][y]` index instead of
returning one. -/
theorem C5_oob (g : Nat → Nat) (fuel : Nat) (b : Board) (rpos x y : Nat)
    (h : x ≥ b.width ∨ y ≥ b.height) :
    revealAt g (fuel + 1) b rpos x y =
      .err "x and y must be less than width and height" ∧
    toggleDisplayAt b x y = .err "Index out of bounds" ∧
    (∃ e, getTileAt b x y = .err e) ∧
    (∃ e, getDisplayAt b x y = .err e) ∧
    revealAdjacent g (fuel + 1) b rpos x y = .panicked := by
  have hrd : readDisplay b x y = .panicked := by
    unfold readDisplay
    rcases h with h | h
    · rw [if_neg (by omega)]
    · by_cases hx : x < b.width
      · rw [if_pos hx, if_neg (by omega)]
      · rw [if_neg hx]
  refine ⟨?_, ?_, ?_, ?_, ?_⟩
  · rw [revealAt, if_pos h]
  · rw [toggleDisplayAt, if_pos h]
  · unfold getTileAt
    by_cases hx : x ≥ b.width
    · exact ⟨_, by rw [if_pos hx]⟩
    · exact ⟨_, by rw [if_neg hx, if_pos (by omega)]⟩
  · unfold getDisplayAt
    by_cases hx : x ≥ b.width
    · exact ⟨_, by rw [if_pos hx]⟩
    · exact ⟨_, by rw [if_neg hx, if_pos (by omega)]⟩
  · rw [revealAdjacent, hrd]

/-- Witness for C5_oob on the 1×1 board at the out-of-bounds `x = 1`. -/
theorem C5_oob_witness :
    revealAt gId 1 tinyBoard 0 1 0 =
      .err "x and y must be less than width and height" ∧
    revealAdjacent gId 1 tinyBoard 0 1 0 = .panicked := by
  have h := C5_oob gId 0 tinyBoard 0 1 0 (by decide)
  exact ⟨h.1, h.2.2.2.2⟩

/-- Counterexample to C5 as stated: at `x = 1` on the 1×1 board,
`reveal_adjacent` panics rather than returning a typed error. -/
theorem C5_oob_cex :
    revealAdjacent gId 1 tinyBoard 0 1 0 = .panicked ∧
    ∀ e, revealAdjacent gId 1 tinyBoard 0 1 0 ≠ RRes.err e := by
  refine ⟨rfl, fun e h => ?_⟩
  rw [show revealAdjacent gId 1 tinyBoard 0 1 0 = .panicked from rfl] at h
  exact RRes.noConfusion h

/-- Counterexample to C4 as stated: `reveal_adjacent` with the
out-of-bounds `y = 5` on the 1×1 board panics (unchecked `Vec` index), so
the core is not panic-free. -/
theorem C4_no_panic_cex :
    revealAdjacent gId 1 tinyBoard 0 0 5 = .panicked := rfl

end Minesweeper
